import Mathlib

/-!
Verification of the navigation / selection engine of a structured math editor
(source file: src/editor-model/commands.ts).

The document is a tree of typed atoms addressed by a linear offset produced by
a depth-first flattening in which the descendants of an atom precede the atom
itself, and each branch starts with a synthetic sentinel atom of type first.
The model layer (offset lookup, sibling queries, selection state) is not part
of the analysed source file; it is modelled from the specification as a flat
list of atoms carrying their parent offset and branch name.  The command
functions (move, skip, wordBoundaryOffset, selectGroup, moveUpward,
moveDownward, leap, moveToSuperscript, moveToSubscript, superscriptDepth,
subscriptDepth) are shallow embeddings of the TypeScript source.  Loops are
written with explicit fuel; a result of Walk.out means the fuel budget was
exhausted, Walk.crash models a TypeScript runtime error (property access on
undefined).
-/

namespace MLV

/-- Mode of an atom: math or text. -/
inductive Mode where
  | math
  | text
deriving DecidableEq, Repr

/-- Structural type of an atom (the subset of atom types that the analysed
commands inspect).  The tag textRun stands for instances of the TextAtom
class and cmd for instances of the CommandAtom class. -/
inductive AtomType where
  | first
  | mord
  | mbin
  | mop
  | mopen
  | mclose
  | mpunct
  | msubsup
  | placeholder
  | textRun
  | cmd
  | genfrac
deriving DecidableEq, Repr

/-- Named branches of an atom, in the fixed flattening order. -/
inductive BranchName where
  | above
  | body
  | below
  | superscript
  | subscript
deriving DecidableEq, Repr

/-- Possible values of the limits property of an atom. -/
inductive LimitsV where
  | limits
  | auto
  | nolimits
deriving DecidableEq, Repr

/-- Modelled from the spec: one atom of the flattened document.  parent is the
offset of the owning atom (none when the owner is the root, which itself has
no offset), branch is the name of the branch the atom sits in.  In the
flattening every descendant of an atom precedes it, so parent offsets are
strictly greater than the offsets of their children.  baseType is some for
instances of the SubsupAtom class (storing the type of their base). -/
structure FlatAtom where
  ty : AtomType
  mode : Mode
  value : Char
  skipBoundary : Bool := false
  captureSelection : Bool := false
  isSuggestion : Bool := false
  limits : Option LimitsV := none
  baseType : Option AtomType := none
  parent : Option Nat := none
  branch : BranchName := BranchName.body
deriving DecidableEq, Repr

/-- Modelled from the spec: the model state.  atoms is the depth-first
flattening of the document (offset i addresses atoms[i]); position and anchor
are the cursor state, kept as integers because the source manipulates
offsets as plain numbers.  suppress models suppressChangeNotifications. -/
structure Model where
  atoms : List FlatAtom
  position : Int
  anchor : Int
  suppress : Bool := false
deriving DecidableEq, Repr

/-- Announcements emitted through the announcer side channel. -/
inductive Ann where
  | plonk
  | move (prev : Int)
  | moveUp
  | moveDown
  | line
deriving DecidableEq, Repr

/-- Result of a command: boolean return value, final model state and the list
of announcements emitted, in order. -/
structure CmdRes where
  res : Bool
  model : Model
  anns : List Ann
deriving DecidableEq, Repr

/-- The four move directions. -/
inductive Dir4 where
  | forward
  | backward
  | upward
  | downward
deriving DecidableEq, Repr

/-- Host hooks (moveOut and tabOut), modelled as pure functions of the
direction (tabOut takes the forward flag). -/
structure Hooks where
  moveOut : Dir4 → Bool
  tabOut : Bool → Bool

/-- Modelled from the spec: the focus provider used by placeholder leap when
no in-document candidate exists.  tabbable is the ordered list of focusable
host elements (as opaque numeric ids) and active the currently focused one. -/
structure FocusProvider where
  tabbable : List Nat
  active : Option Nat
deriving DecidableEq, Repr

/-- Mathfield options consulted by the commands: the subscript / superscript
nesting bounds (none models the default bound of positive infinity). -/
structure OptionsRec where
  scriptDepthSub : Option Nat := none
  scriptDepthSup : Option Nat := none
deriving DecidableEq, Repr

/-- Outcome of a fuelled computation: done carries the value and the remaining
fuel, crash models a TypeScript runtime error, out means the fuel ran out. -/
inductive Walk (α : Type) where
  | done (a : α) (rem : Nat)
  | crash
  | out
deriving DecidableEq, Repr

namespace Model

/-- Number of atoms in the flattening. -/
def size (m : Model) : Nat := m.atoms.length

/-- Modelled from the spec: lastOffset, the offset of the final atom of the
flattening (minus one when the document is empty, as in the source where
offsets are plain numbers). -/
def lastOffset (m : Model) : Int := (m.atoms.length : Int) - 1

/-- Modelled from the spec: at(offset), undefined outside the valid range. -/
def at' (m : Model) (i : Int) : Option FlatAtom :=
  if i < 0 then none else m.atoms.get? i.toNat

/-- Type of the atom at an offset, when it exists. -/
def tyAt (m : Model) (i : Int) : Option AtomType := (m.at' i).map (·.ty)

/-- Parent offset of the atom at an offset, when both exist. -/
def parentAt (m : Model) (i : Int) : Option Nat := (m.at' i).bind (·.parent)

/-- Branch name of the atom at an offset, when it exists. -/
def branchAt (m : Model) (i : Int) : Option BranchName := (m.at' i).map (·.branch)

/-- True when the two offsets hold atoms of the same parent and branch,
i.e. the atoms are siblings (membership in the same branch child list). -/
def sameOwner (m : Model) (i j : Nat) : Bool :=
  match m.atoms.get? i, m.atoms.get? j with
  | some a, some b => a.parent = b.parent ∧ a.branch = b.branch
  | _, _ => false

/-- Modelled from the spec: offset of the right sibling of the atom at offset
i (the next atom of the same branch child list), none when i is the last
sibling or holds no atom. -/
def rightSibO (m : Model) (i : Nat) : Option Nat :=
  (List.range m.atoms.length).find? (fun j => i < j ∧ m.sameOwner i j)

/-- Modelled from the spec: offset of the left sibling of the atom at offset
i, none when i is the first sibling (the branch sentinel) or holds no atom. -/
def leftSibO (m : Model) (i : Nat) : Option Nat :=
  ((List.range i).filter (fun j => m.sameOwner i j)).getLast?

/-- Modelled from the spec: isFirstSibling (the atom is the first entry of
its branch child list, i.e. the branch sentinel). -/
def isFirstSib (m : Model) (i : Nat) : Bool := (m.leftSibO i).isNone

/-- Modelled from the spec: isLastSibling. -/
def isLastSib (m : Model) (i : Nat) : Bool := (m.rightSibO i).isNone

/-- Modelled from the spec: offset of the first sibling of the atom at offset
i (the branch sentinel; i itself when it has no earlier sibling). -/
def firstSibO (m : Model) (i : Nat) : Nat :=
  match (List.range i).find? (fun j => m.sameOwner i j) with
  | some j => j
  | none => i

/-- Modelled from the spec: offset of the last sibling of the atom at offset i. -/
def lastSibO (m : Model) (i : Nat) : Nat :=
  (((List.range m.atoms.length).filter (fun j => i < j ∧ m.sameOwner i j)).getLast?).getD i

/-- Atom lookup by a natural-number offset. -/
def atN (m : Model) (i : Nat) : Option FlatAtom := m.atoms.get? i

/-- Modelled from the spec: the position setter places the caret, collapsing
the selection (anchor and position both move to the given offset). -/
def posSet (m : Model) (i : Int) : Model := { m with position := i, anchor := i }

/-- Modelled from the spec: collapseSelection(direction).  Returns false and
leaves the state unchanged when the selection is already collapsed; otherwise
moves both ends to the forward (maximum) or backward (minimum) end. -/
def collapseSel (m : Model) (fwd : Bool) : Bool × Model :=
  if m.anchor = m.position then (false, m)
  else
    let p := if fwd then max m.anchor m.position else min m.anchor m.position
    (true, { m with position := p, anchor := p })

/-- Modelled from the spec: setSelection(anchor, position).  The requested
offsets are normalized (clamped) into the valid range before being stored,
keeping the model invariant; the returned boolean reports whether the
selection changed. -/
def setSel (m : Model) (a b : Int) : Bool × Model :=
  let a' := max 0 (min a m.lastOffset)
  let b' := max 0 (min b m.lastOffset)
  if m.anchor = a' ∧ m.position = b' then (false, m)
  else (true, { m with anchor := a', position := b' })

/-- Modelled from the spec: selectionIsPlaceholder, true when the selection
covers exactly one atom and that atom is a placeholder. -/
def selIsPlaceholder (m : Model) : Bool :=
  (m.anchor - m.position).natAbs = 1 ∧
    m.tyAt (max m.anchor m.position) = some AtomType.placeholder

/-- Modelled from the spec: extendSelection(direction), extend-by-one-offset:
move the position end of the selection one offset in the direction, keeping
the anchor; fails at the document edge. -/
def extendSel (m : Model) (fwd : Bool) : Bool × Model :=
  let p := m.position + (if fwd then 1 else -1)
  if p < 0 ∨ m.lastOffset < p then (false, m)
  else m.setSel m.anchor p

end Model

/-- Alphanumeric character test (the LETTER_AND_DIGITS character class,
modelled from the spec as letters and digits). -/
def isLD (c : Char) : Bool := c.isAlpha || c.isDigit

/-- Whitespace character test. -/
def isWS (c : Char) : Bool := c.isWhitespace

/-- Character class of command-name atoms: letters and the star. -/
def isCmdChar (c : Char) : Bool := c.isAlpha || c = '*'

/-- Return true if the atom could be part of a number such as -12354.568:
an ordinary atom holding a digit or a dot, or a punctuation comma. -/
def isNumber : Option FlatAtom → Bool
  | none => false
  | some a =>
    (a.ty = AtomType.mord ∧ (a.value.isDigit ∨ a.value = '.')) ∨
      (a.ty = AtomType.mpunct ∧ a.value = ',')

namespace Model

/-- Parent offset of the atom at a natural-number offset. -/
def parentN (m : Model) (j : Nat) : Option Nat := (m.atoms.get? j).bind (·.parent)

/-- Branch name of the atom at a natural-number offset. -/
def branchN (m : Model) (j : Nat) : Option BranchName := (m.atoms.get? j).map (·.branch)

/-- Direct children (the branch child list, sentinel included) of branch b of
the atom at offset t, as the ordered list of their offsets. -/
def branchChildren (m : Model) (t : Nat) (b : BranchName) : List Nat :=
  (List.range m.atoms.length).filter
    (fun j => (m.parentN j = some t : Bool) ∧ m.branchN j = some b)

/-- Modelled from the spec: the branch exists (was created at some point), in
which case it holds at least its sentinel. -/
def hasBranch (m : Model) (t : Nat) (b : BranchName) : Bool :=
  ¬(m.branchChildren t b).isEmpty

/-- Modelled from the spec: hasEmptyBranch — the branch is absent or holds
nothing beyond its sentinel. -/
def hasEmptyBranch (m : Model) (t : Nat) (b : BranchName) : Bool :=
  (m.branchChildren t b).length ≤ 1

/-- Offset of the last direct child of the atom at offset t (over all
branches); this is the last element of the children flattening, i.e. the
atom at offset t - 1 in a well-formed model. -/
def lastChildO (m : Model) (t : Nat) : Option Nat :=
  ((List.range m.atoms.length).filter (fun j => (m.parentN j = some t : Bool))).getLast?

/-- Walk the parent chain upward from offset j; true when the chain reaches
offset t.  Fuel bounds the walk (parent chains are finite in well-formed
models because parents sit at strictly larger offsets). -/
def chainHits (m : Model) : Nat → Nat → Nat → Bool
  | 0, _, _ => false
  | fuel + 1, j, t =>
    match m.parentN j with
    | none => false
    | some p => if p = t then true else m.chainHits fuel p t

/-- Offset of the first descendant of the atom at offset t in flattening
order (the start of its subtree), none when t has no children. -/
def firstChildO (m : Model) (t : Nat) : Option Nat :=
  (List.range m.atoms.length).find? (fun j => m.chainHits (m.atoms.length + 1) j t)

/-- Branch of the subtree of t that the atom at offset j belongs to: the
branch name of the child of t on the parent chain of j, none when j is not a
descendant of t. -/
def chainBranch (m : Model) : Nat → Nat → Nat → Option BranchName
  | 0, _, _ => none
  | fuel + 1, j, t =>
    match m.atoms.get? j with
    | none => none
    | some a =>
      match a.parent with
      | none => none
      | some p => if p = t then some a.branch else m.chainBranch fuel p t

/-- Number of atoms of the subtree of branch b of the atom at offset t. -/
def branchSize (m : Model) (t : Nat) (b : BranchName) : Nat :=
  ((List.range m.atoms.length).filter
    (fun j => m.chainBranch (m.atoms.length + 1) j t = some b)).length

end Model

/-- Position of a branch in the fixed flattening order of named branches. -/
def branchPos : BranchName → Nat
  | BranchName.above => 0
  | BranchName.body => 1
  | BranchName.below => 2
  | BranchName.superscript => 3
  | BranchName.subscript => 4

/-- Insert an element at an index of a list (the index clamped to the list
length, every later element shifted one place up). -/
def insertAt {α : Type} : List α → Nat → α → List α
  | l, 0, a => a :: l
  | [], _ + 1, a => [a]
  | b :: l, n + 1, a => b :: insertAt l n a

/-- Shift an offset up by one when it is at or past the insertion index. -/
def bump (idx k : Nat) : Nat := if idx ≤ k then k + 1 else k

/-- Remap the parent offset of an atom across an insertion at idx. -/
def FlatAtom.remap (a : FlatAtom) (idx : Nat) : FlatAtom :=
  { a with parent := a.parent.map (bump idx) }

namespace Model

/-- Insert an atom into the flattening at offset idx, shifting the parent
references of all atoms (and of the new atom, whose parent is given in
pre-insertion coordinates) across the insertion point. -/
def insertAtomAt (m : Model) (idx : Nat) (a : FlatAtom) : Model :=
  { m with atoms := insertAt (m.atoms.map (FlatAtom.remap · idx)) idx (a.remap idx) }

/-- Flattening offset at which a freshly created branch b of the atom at
offset t begins: just before t, minus the subtrees of the branches that come
later in the branch order. -/
def newBranchIdx (m : Model) (t : Nat) (b : BranchName) : Nat :=
  t - ((List.range m.atoms.length).filter
    (fun j =>
      match m.chainBranch (m.atoms.length + 1) j t with
      | some b' => branchPos b < branchPos b'
      | none => false)).length

/-- Modelled from the spec: createBranch is idempotent — fetch the branch
child list when the branch exists, otherwise insert a fresh sentinel at the
branch position in the flattening.  Returns the updated model and the branch
child list (offsets in the updated model). -/
def createBranch (m : Model) (t : Nat) (b : BranchName) : Model × List Nat :=
  if m.hasBranch t b then (m, m.branchChildren t b)
  else
    let mo := match m.atN t with | some a => a.mode | none => Mode.math
    let idx := m.newBranchIdx t b
    (m.insertAtomAt idx
      { ty := AtomType.first, mode := mo, value := ' ', parent := some t, branch := b },
      [idx])

/-- Insert a fresh childless atom as the right sibling of the atom at offset
t (its flattening position is directly after t). -/
def addChildAfter (m : Model) (t : Nat) (a : FlatAtom) : Model :=
  m.insertAtomAt (t + 1) a

/-- Modelled from the spec: getSiblingsRange(offset) — the span of the full
sibling list containing the offset, from the branch sentinel to the last
sibling. -/
def getSiblingsRange (m : Model) (i : Nat) : Int × Int :=
  ((m.firstSibO i : Int), (m.lastSibO i : Int))

/-- Modelled from the spec: clearing the pending command-suggestion range at
the start of every directional move.  When no suggestion atoms exist this is
the identity; otherwise the suggestion atoms are deleted from the flattening
(parent references remapped, cursor clamped into the remaining range). -/
def clearSuggestions (m : Model) : Model :=
  if m.atoms.any (·.isSuggestion) then
    let keep : Nat → Bool := fun j =>
      match m.atoms.get? j with
      | some a => ¬a.isSuggestion
      | none => false
    let newIdx : Nat → Nat := fun j => ((List.range j).filter keep).length
    let atoms' :=
      ((List.range m.atoms.length).filter keep).filterMap
        (fun j => (m.atoms.get? j).map
          (fun a => { a with
            parent := a.parent.bind (fun p => if keep p then some (newIdx p) else none) }))
    let last' : Int := (atoms'.length : Int) - 1
    { atoms := atoms', position := min m.position last', anchor := min m.anchor last',
      suppress := m.suppress }
  else m

/-- Set the isSuggestion flag of the atom at an offset to false. -/
def setSuggFalse (m : Model) (c : Nat) : Model :=
  match m.atoms.get? c with
  | some a => { m with atoms := m.atoms.set c { a with isSuggestion := false } }
  | none => m

end Model

/-- Do-while scan of wordBoundaryOffset (cases 1 and 2b): evaluate the match
predicate at the current offset, advance by d, continue while an atom exists
at the new offset and the predicate held.  Returns the offset after the last
advance.  The body dereferences the current atom, so a missing atom at entry
is a crash. -/
def wbDo (m : Model) (d : Int) (P : FlatAtom → Bool) : Nat → Int → Walk Int
  | fuel, i =>
    match m.at' i with
    | none => Walk.crash
    | some a =>
      if (m.at' (i + d)).isSome ∧ P a then
        match fuel with
        | 0 => Walk.out
        | f + 1 => wbDo m d P f (i + d)
      else Walk.done (i + d) fuel

/-- Do-while scan with a truthiness check at entry (case 3b of
wordBoundaryOffset, whose loop condition tests the atom before the body
dereferences it): a missing atom at the current offset exits immediately. -/
def wbDoC (m : Model) (d : Int) (P : FlatAtom → Bool) : Nat → Int → Walk Int
  | fuel, i =>
    match m.at' i with
    | none => Walk.done i fuel
    | some a =>
      if (m.at' (i + d)).isSome ∧ P a then
        match fuel with
        | 0 => Walk.out
        | f + 1 => wbDoC m d P f (i + d)
      else Walk.done (i + d) fuel

/-- While scan of wordBoundaryOffset (cases 2a and 3a): advance by d while an
atom exists at the current offset and satisfies the predicate; exits at the
first offset that fails. -/
def wbWhile (m : Model) (d : Int) (P : FlatAtom → Bool) : Nat → Int → Walk Int
  | fuel, i =>
    match m.at' i with
    | none => Walk.done i fuel
    | some a =>
      if P a then
        match fuel with
        | 0 => Walk.out
        | f + 1 => wbWhile m d P f (i + d)
      else Walk.done i fuel

/-- Predicate of the alphanumeric word-boundary scan: a text-mode
alphanumeric atom. -/
def pTextLD (a : FlatAtom) : Bool := a.mode = Mode.text ∧ isLD a.value

/-- Predicate of the whitespace word-boundary scan: a text-mode whitespace
atom. -/
def pTextWS (a : FlatAtom) : Bool := a.mode = Mode.text ∧ isWS a.value

/-- Predicate of the non-whitespace word-boundary scan: a text-mode
non-whitespace atom. -/
def pTextNotWS (a : FlatAtom) : Bool := a.mode = Mode.text ∧ ¬isWS a.value

/-- Embedding of wordBoundaryOffset: the offset of the next word boundary
from a starting offset in a text zone, following the three cases of the
source (alphanumeric start, whitespace start, punctuation start) and the
final backward off-by-one normalization. -/
def wbo (m : Model) (offset : Int) (backward : Bool) (fuel : Nat) : Walk Int :=
  match m.at' offset with
  | none => Walk.crash
  | some a0 =>
    if a0.mode ≠ Mode.text then Walk.done offset fuel
    else
      let d : Int := if backward then -1 else 1
      let adj : Int := if backward then 1 else 0
      if isLD a0.value then
        match wbDo m d pTextLD fuel offset with
        | Walk.done i rem =>
          Walk.done ((if (m.at' i).isSome then i - 2 * d else i - d) - adj) rem
        | Walk.crash => Walk.crash
        | Walk.out => Walk.out
      else if isWS a0.value then
        match wbWhile m d pTextWS fuel offset with
        | Walk.done i rem =>
          if (m.at' i).isNone then Walk.done ((i - d) - adj) rem
          else
            match wbDo m d pTextNotWS rem i with
            | Walk.done i2 rem2 =>
              Walk.done ((if (m.at' i2).isSome then i2 - 2 * d else i2 - d) - adj) rem2
            | Walk.crash => Walk.crash
            | Walk.out => Walk.out
        | Walk.crash => Walk.crash
        | Walk.out => Walk.out
      else
        match wbWhile m d pTextNotWS fuel offset with
        | Walk.done i rem =>
          match wbDoC m d pTextWS rem i with
          | Walk.done i2 rem2 =>
            Walk.done ((if (m.at' i2).isSome then i2 - 2 * d else i2 - d) - adj) rem2
          | Walk.crash => Walk.crash
          | Walk.out => Walk.out
        | Walk.crash => Walk.crash
        | Walk.out => Walk.out

/-- Suggestion-accepting walk of skip: clear the isSuggestion flag of each
command atom walked over, recording its offset, and move to the right
sibling while the current atom is a command atom. -/
def sugLoop : Nat → Model → Option Nat → Int → Walk (Int × Model)
  | fuel, m, none, acc => Walk.done (acc, m) fuel
  | fuel, m, some c, acc =>
    match m.atoms.get? c with
    | none => Walk.done (acc, m) fuel
    | some a =>
      if a.ty = AtomType.cmd then
        match fuel with
        | 0 => Walk.out
        | f + 1 =>
          sugLoop f (m.setSuggFalse c) ((m.setSuggFalse c).rightSibO c) (c : Int)
      else Walk.done (acc, m) fuel

/-- Sibling walk of skip over contiguous alphabetic / star command atoms,
recording the offset of the last matching atom. -/
def cmdLoop (fwd : Bool) : Nat → Model → Option Nat → Int → Walk Int
  | fuel, _, none, acc => Walk.done acc fuel
  | fuel, m, some c, acc =>
    match m.atoms.get? c with
    | none => Walk.done acc fuel
    | some a =>
      if a.ty = AtomType.cmd ∧ isCmdChar a.value then
        match fuel with
        | 0 => Walk.out
        | f + 1 =>
          cmdLoop fwd f m (if fwd then m.rightSibO c else m.leftSibO c) (c : Int)
      else Walk.done acc fuel

/-- Contribution of an atom to the fence nesting level: +1 for an open fence,
-1 for a close fence. -/
def fenceDelta (a : FlatAtom) : Int :=
  if a.ty = AtomType.mopen then 1 else if a.ty = AtomType.mclose then -1 else 0

/-- Forward balanced-fence walk of skip: accumulate the nesting level and
step to the right sibling until the atom is the last sibling or the level
returns to zero; returns the offset of the atom at which the walk stopped
(after its final advance).  A missing right sibling is a crash (the source
dereferences it in the loop condition). -/
def fenceFwd : Nat → Model → Nat → Int → Walk Nat
  | fuel, m, c, lvl =>
    match m.atoms.get? c with
    | none => Walk.crash
    | some a =>
      match m.rightSibO c with
      | none => Walk.crash
      | some r =>
        if ¬m.isLastSib r ∧ lvl + fenceDelta a ≠ 0 then
          match fuel with
          | 0 => Walk.out
          | f + 1 => fenceFwd f m r (lvl + fenceDelta a)
        else Walk.done r fuel

/-- Backward balanced-fence walk of skip (mirror of fenceFwd, stepping to the
left sibling and stopping at the first sibling). -/
def fenceBwd : Nat → Model → Nat → Int → Walk Nat
  | fuel, m, c, lvl =>
    match m.atoms.get? c with
    | none => Walk.crash
    | some a =>
      match m.leftSibO c with
      | none => Walk.crash
      | some l =>
        if ¬m.isFirstSib l ∧ lvl + fenceDelta a ≠ 0 then
          match fuel with
          | 0 => Walk.out
          | f + 1 => fenceBwd f m l (lvl + fenceDelta a)
        else Walk.done l fuel

/-- Backward scan of skip across consecutive first sentinels towards the true
start of the enclosing run. -/
def firstScan : Nat → Model → Int → Walk Int
  | fuel, m, off =>
    if 0 < off then
      match m.at' off with
      | none => Walk.crash
      | some a =>
        if a.ty = AtomType.first then
          match fuel with
          | 0 => Walk.out
          | f + 1 => firstScan f m (off - 1)
        else Walk.done off fuel
    else Walk.done off fuel

/-- Backward boundary-type walk of skip in a general math zone: step left
(jumping over the base of a super/subscript container via the left sibling)
while the type at the offset matches the starting boundary type.  The source
reads the type of the atom at the new offset without an optional chain, so
stepping past offset zero is a crash. -/
def mathBwd (ty0 : AtomType) : Nat → Model → Int → Option AtomType → Walk Int
  | fuel, m, off, nextTy =>
    if 0 ≤ off ∧ nextTy = some ty0 then
      match fuel with
      | 0 => Walk.out
      | f + 1 =>
        if m.tyAt off = some AtomType.msubsup then
          match m.leftSibO off.toNat with
          | none => Walk.crash
          | some l =>
            match m.at' (l : Int) with
            | none => Walk.crash
            | some a => mathBwd ty0 f m (l : Int) (some a.ty)
        else
          match m.at' (off - 1) with
          | none => Walk.crash
          | some a => mathBwd ty0 f m (off - 1) (some a.ty)
    else Walk.done off fuel

/-- Forward boundary-type walk of skip in a general math zone: while the type
at the offset matches the starting type (treating super/subscript containers
as transparent), jump over a trailing container sibling, or advance one
offset.  The inner while loop of the source (which runs the container jumps
to completion before the single-offset advance) is flattened into the same
stepping recursion: after a jump the loop condition still holds with the
unchanged nextType, so the stepping order is identical. -/
def mathFwd (ty0 : AtomType) : Nat → Model → Nat → Option AtomType → Walk Int
  | fuel, m, off, nextTy =>
    if (off : Int) ≤ m.lastOffset ∧
        (nextTy = some ty0 ∨ nextTy = some AtomType.msubsup) then
      match fuel with
      | 0 => Walk.out
      | f + 1 =>
        match m.rightSibO off with
        | some r =>
          if m.tyAt (r : Int) = some AtomType.msubsup then mathFwd ty0 f m r nextTy
          else mathFwd ty0 f m (off + 1) (m.tyAt ((off : Int) + 1))
        | none => mathFwd ty0 f m (off + 1) (m.tyAt ((off : Int) + 1))
    else Walk.done (off : Int) fuel

/-- Common tail of skip: extend the selection to the computed offset, or move
the caret there, announcing a plonk when nothing would change. -/
def skipFinish (m : Model) (prev : Int) (ext : Bool) (off : Int) (rem : Nat) :
    Walk CmdRes :=
  if ext then
    let (ok, m') := m.setSel m.anchor off
    if ok then Walk.done ⟨true, m', [Ann.move prev]⟩ rem
    else Walk.done ⟨false, m', [Ann.plonk]⟩ rem
  else
    if off = m.position then Walk.done ⟨false, m, [Ann.plonk]⟩ rem
    else Walk.done ⟨true, m.posSet off, [Ann.move prev]⟩ rem

/-- Per-atom dispatch of skip (the part of the source after the adjacent
atom has been determined): word boundary in a text zone, suggestion end or
command-name boundary in a command zone, matching fence after an open fence /
before a close fence, else the first atom whose boundary type differs. -/
def skipDispatch (m : Model) (prev : Int) (backward ext : Bool) (c : Nat)
    (fuel : Nat) : Walk CmdRes :=
      match m.atoms.get? c with
      | none => Walk.crash
      | some a =>
        if a.ty = AtomType.textRun then
          match wbo m (c : Int) backward fuel with
          | Walk.done off rem => skipFinish m prev ext off rem
          | Walk.crash => Walk.crash
          | Walk.out => Walk.out
        else if a.ty = AtomType.cmd then
          if a.isSuggestion then
            match sugLoop fuel m (some c) (c : Int) with
            | Walk.done (off, m') rem => skipFinish m' prev ext off rem
            | Walk.crash => Walk.crash
            | Walk.out => Walk.out
          else if ¬backward then
            match m.rightSibO c with
            | none => Walk.done ⟨false, m, [Ann.plonk]⟩ fuel
            | some r =>
              if (m.atoms.get? r).any (·.ty = AtomType.cmd) then
                match cmdLoop true fuel m (some r) (c : Int) with
                | Walk.done off rem => skipFinish m prev ext off rem
                | Walk.crash => Walk.crash
                | Walk.out => Walk.out
              else Walk.done ⟨false, m, [Ann.plonk]⟩ fuel
          else
            match m.leftSibO c with
            | none => Walk.done ⟨false, m, [Ann.plonk]⟩ fuel
            | some l =>
              if (m.atoms.get? l).any (·.ty = AtomType.cmd) then
                match cmdLoop false fuel m (some l) (c : Int) with
                | Walk.done off rem => skipFinish m prev ext off rem
                | Walk.crash => Walk.crash
                | Walk.out => Walk.out
              else Walk.done ⟨false, m, [Ann.plonk]⟩ fuel
        else if ¬backward ∧ a.ty = AtomType.mopen then
          match fenceFwd fuel m c 0 with
          | Walk.done r rem =>
            match m.leftSibO r with
            | none => Walk.crash
            | some l => skipFinish m prev ext (l : Int) rem
          | Walk.crash => Walk.crash
          | Walk.out => Walk.out
        else if backward ∧ a.ty = AtomType.mclose then
          match fenceBwd fuel m c 0 with
          | Walk.done l rem => skipFinish m prev ext (l : Int) rem
          | Walk.crash => Walk.crash
          | Walk.out => Walk.out
        else if backward then
          if a.ty = AtomType.first then
            match firstScan fuel m (c : Int) with
            | Walk.done off rem => skipFinish m prev ext off rem
            | Walk.crash => Walk.crash
            | Walk.out => Walk.out
          else if a.ty = AtomType.msubsup then
            match m.leftSibO c with
            | none => Walk.crash
            | some l =>
              match mathBwd (a.baseType.getD a.ty) fuel m ((l : Int) - 1)
                  ((m.at' ((l : Int) - 1)).map (·.ty)) with
              | Walk.done off rem => skipFinish m prev ext off rem
              | Walk.crash => Walk.crash
              | Walk.out => Walk.out
          else
            match mathBwd (a.baseType.getD a.ty) fuel m ((c : Int) - 1)
                ((m.at' ((c : Int) - 1)).map (·.ty)) with
            | Walk.done off rem => skipFinish m prev ext off rem
            | Walk.crash => Walk.crash
            | Walk.out => Walk.out
        else
          match mathFwd a.ty fuel m c (m.tyAt (c : Int)) with
          | Walk.done off rem => skipFinish m prev ext (off - 1) rem
          | Walk.crash => Walk.crash
          | Walk.out => Walk.out

/-- Embedding of skip: collapse the selection unless extending, determine the
adjacent atom in the given direction (for forward moves the atom one offset
ahead, or the right sibling of a script container), soft-fail when there is
none, and dispatch on its kind. -/
def skipF (m₀ : Model) (backward : Bool) (ext : Bool) (fuel : Nat) : Walk CmdRes :=
  let prev := m₀.position
  let m := if ext then m₀ else (m₀.collapseSel (¬backward)).2
  match m.at' m.position with
  | none =>
    if backward then Walk.done ⟨false, m, [Ann.plonk]⟩ fuel
    else Walk.crash
  | some aPos =>
    let curW : Option Nat :=
      if backward then some m.position.toNat
      else if aPos.ty = AtomType.msubsup then
        match m.rightSibO m.position.toNat with
        | some r => some r
        | none =>
          match m.at' (m.position + 1) with
          | some _ => some (m.position + 1).toNat
          | none => none
      else
        match m.at' (m.position + 1) with
        | some _ => some (m.position + 1).toNat
        | none => none
    match curW with
    | none => Walk.done ⟨false, m, [Ann.plonk]⟩ fuel
    | some c => skipDispatch m prev backward ext c fuel

/-- Forward boundary correction of move: from the candidate offset
position + 1, jump past a capture-selection branch, or one extra offset past
a skip-boundary atom.  none models the crash of dereferencing a missing
lastChild. -/
def fwdAdjust (m : Model) : Option Int :=
  let pos := m.position + 1
  match m.at' (m.position + 1) with
  | none => some pos
  | some a =>
    match a.parent with
    | some p =>
      if (m.atoms.get? p).any (·.captureSelection) then
        (m.lastChildO p).map (fun lc => (lc : Int) + 1)
      else if a.skipBoundary then some (pos + 1)
      else some pos
    | none => if a.skipBoundary then some (pos + 1) else some pos

/-- Backward boundary correction of move: from the candidate offset
position - 1, jump before a capture-selection branch, or one extra offset
when landing on the first sibling of a skip-boundary branch. -/
def bwdAdjust (m : Model) : Option Int :=
  let pos := m.position - 1
  match m.at' (m.position - 1) with
  | none => some pos
  | some a =>
    match a.parent with
    | some p =>
      if (m.atoms.get? p).any (·.captureSelection) then
        (m.firstChildO p).map (fun fc => max 0 ((fc : Int) - 1))
      else if m.isFirstSib (m.position - 1).toNat ∧
          (m.atoms.get? p).any (·.skipBoundary) then some (pos - 1)
      else some pos
    | none => some pos

/-- Core of the forward / backward arm of move, with fuel bounding the
re-entry made after collapsing a selected placeholder (one re-entry always
suffices, since the selection is then collapsed).  none models a crash or
fuel exhaustion. -/
def moveFBAux (hk : Hooks) : Nat → Model → Bool → Bool → Option CmdRes
  | 0, _, _, _ => none
  | f + 1, m, backward, ext =>
    let prev := m.position
    if ext then
      let (ok, m') := m.extendSel (¬backward)
      some ⟨ok, m', []⟩
    else if m.selIsPlaceholder then
      moveFBAux hk f ((m.collapseSel (¬backward)).2).clearSuggestions backward false
    else
      let (collapsed, m1) := m.collapseSel (¬backward)
      if collapsed then some ⟨true, m1, [Ann.move prev]⟩
      else
        match (if backward then bwdAdjust m1 else fwdAdjust m1) with
        | none => none
        | some pos =>
          if pos < 0 ∨ m1.lastOffset < pos then
            let r := if m1.suppress then true
              else hk.moveOut (if backward then Dir4.backward else Dir4.forward)
            some ⟨r, m1, if r then [Ann.plonk] else []⟩
          else if m1.tyAt pos = some AtomType.placeholder then
            some ⟨true, (m1.setSel (pos - 1) pos).2, [Ann.move prev]⟩
          else if (match m1.at' pos with
              | some _ =>
                match m1.rightSibO pos.toNat with
                | some rs => (m1.tyAt (rs : Int) = some AtomType.placeholder : Bool)
                | none => false
              | none => false) = true then
            some ⟨true, (m1.setSel pos (pos + 1)).2, [Ann.move prev]⟩
          else some ⟨true, m1.posSet pos, [Ann.move prev]⟩

/-- Ancestor walk of the vertical moves: from the atom at the given offset,
walk the parent chain looking for an atom sitting in the given branch.
Returns none when the fuel runs out, some none when the walk reaches the
root without finding one, and some (some a) for the found ancestor. -/
def ancWalk (m : Model) (b : BranchName) : Nat → Int → Option (Option Nat)
  | 0, _ => none
  | fuel + 1, i =>
    match m.at' i with
    | none => some none
    | some a =>
      if a.branch = b then some (some i.toNat)
      else
        match a.parent with
        | none => some none
        | some p => ancWalk m b fuel (p : Int)

/-- Embedding of moveUpward: collapse backward, find the nearest ancestor in
a below branch; select around its owner (extend), or fetch-or-create the
owner's above branch and move to its last atom; at top level consult the
moveOut hook. -/
def moveUpward (m₀ : Model) (ext : Bool) (hk : Hooks) : Option CmdRes :=
  let m := (m₀.collapseSel false).2
  match ancWalk m BranchName.below (m.size + 1) m.position with
  | none => none
  | some (some a) =>
    match (m.atoms.get? a).bind (·.parent) with
    | none => none
    | some t =>
      if ext then
        match m.leftSibO t with
        | none => none
        | some l => some ⟨true, (m.setSel (l : Int) (t : Int)).2, [Ann.moveUp]⟩
      else
        let (m', brs) := m.createBranch t BranchName.above
        match brs.getLast? with
        | none => none
        | some last => some ⟨true, m'.posSet (last : Int), [Ann.moveUp]⟩
  | some none =>
    match m.at' m.position with
    | none => none
    | some a =>
      match a.parent with
      | some _ => some ⟨true, m, []⟩
      | none =>
        let r := if m.suppress then true else hk.moveOut Dir4.upward
        some ⟨r, m, [if r then Ann.plonk else Ann.line]⟩

/-- Embedding of moveDownward (mirror of moveUpward: collapse forward, look
for an above ancestor, fetch-or-create the below branch). -/
def moveDownward (m₀ : Model) (ext : Bool) (hk : Hooks) : Option CmdRes :=
  let m := (m₀.collapseSel true).2
  match ancWalk m BranchName.above (m.size + 1) m.position with
  | none => none
  | some (some a) =>
    match (m.atoms.get? a).bind (·.parent) with
    | none => none
    | some t =>
      if ext then
        match m.leftSibO t with
        | none => none
        | some l => some ⟨true, (m.setSel (l : Int) (t : Int)).2, [Ann.moveDown]⟩
      else
        let (m', brs) := m.createBranch t BranchName.below
        match brs.getLast? with
        | none => none
        | some last => some ⟨true, m'.posSet (last : Int), [Ann.moveDown]⟩
  | some none =>
    match m.at' m.position with
    | none => none
    | some a =>
      match a.parent with
      | some _ => some ⟨true, m, []⟩
      | none =>
        let r := if m.suppress then true else hk.moveOut Dir4.downward
        some ⟨r, m, [if r then Ann.plonk else Ann.line]⟩

/-- Embedding of move: clear the pending command suggestion, then dispatch on
the direction (vertical moves, or the forward / backward arm). -/
def move4 (m : Model) (dir : Dir4) (ext : Bool) (hk : Hooks) : Option CmdRes :=
  let m1 := m.clearSuggestions
  match dir with
  | Dir4.upward => moveUpward m1 ext hk
  | Dir4.downward => moveDownward m1 ext hk
  | Dir4.forward => moveFBAux hk 2 m1 false ext
  | Dir4.backward => moveFBAux hk 2 m1 true ext

/-- Candidate filter of leap: a placeholder atom, or the lone sentinel of an
empty branch whose owner is not the root (modelled from the spec: empty,
non-root branch). -/
def leapCandidate (m : Model) (j : Nat) : Bool :=
  (m.tyAt (j : Int) = some AtomType.placeholder : Bool) ||
    ((m.parentN j).isSome && m.isFirstSib j && m.isLastSib j)

/-- Modelled from the spec: getAllAtoms(fromOffset) — all atoms from the
given offset to the end of the document, in document order. -/
def getAllFrom (m : Model) (start : Int) : List Nat :=
  (List.range m.size).filter (fun j => (start ≤ (j : Int) : Bool))

/-- Embedding of leap: move past an anchored placeholder, then search the
document in the given direction for the nearest placeholder or empty
non-root branch; when none exists, consult the tabOut hook and, failing
that, cycle the host focus.  The second component of the result is the host
element that received focus, when any. -/
def leap (m₀ : Model) (backward : Bool) (hk : Hooks) (fp : FocusProvider)
    (callHooks : Bool) : Option (CmdRes × Option Nat) :=
  let dist : Int := if backward then -1 else 1
  let mA? : Option Model :=
    if m₀.tyAt m₀.anchor = some AtomType.placeholder then
      (move4 m₀ (if backward then Dir4.backward else Dir4.forward) false hk).map
        (·.model)
    else some m₀
  match mA? with
  | none => none
  | some mA =>
    let allAtoms := getAllFrom mA (mA.position + dist)
    let ordered := if backward then allAtoms.reverse else allAtoms
    let phs := ordered.filter (leapCandidate mA)
    match phs with
    | [] =>
      let handled := (!callHooks) || (!hk.tabOut (!backward))
      if handled then some (⟨false, mA, [Ann.plonk]⟩, none)
      else
        match fp.active with
        | none => some (⟨false, mA, [Ann.plonk]⟩, none)
        | some act =>
          if fp.tabbable.length = 1 then some (⟨false, mA, [Ann.plonk]⟩, none)
          else
            let i0 : Int := (fp.tabbable.indexOf? act).elim (-1) (fun j => (j : Int))
            let len : Int := fp.tabbable.length
            let i1 := i0 + dist
            let i2 := if i1 < 0 then len - 1 else i1
            let i3 := if len ≤ i2 then 0 else i2
            match fp.tabbable.get? i3.toNat with
            | none => none
            | some el =>
              if i3 = 0 then some (⟨false, mA, [Ann.plonk]⟩, some el)
              else some (⟨true, mA, []⟩, some el)
    | p :: _ =>
      let prev := mA.position
      let newPos : Int := (p : Int)
      if mA.tyAt newPos = some AtomType.placeholder then
        some (⟨true, (mA.setSel (newPos - 1) newPos).2, [Ann.move prev]⟩, none)
      else
        some (⟨true, mA.posSet newPos, [Ann.move prev]⟩, none)

/-- Downward scan of the text arm of selectGroup: decrease the start offset
while the atom there is alphanumeric text; none models the crash of reading
a missing atom. -/
def sgDown (m : Model) : Nat → Option Nat
  | 0 => some 0
  | s + 1 =>
    match m.atoms.get? (s + 1) with
    | none => none
    | some a => if a.mode = Mode.text ∧ isLD a.value then sgDown m s else some (s + 1)

/-- Upward scan of the text arm of selectGroup: increase the end offset while
it is within the document and the atom there is alphanumeric text.  Returns
the final offset and whether the scan stopped on a non-matching atom (the
done flag of the source); none is fuel exhaustion (unreachable with fuel
above the document size). -/
def sgUp (m : Model) : Nat → Nat → Option (Nat × Bool)
  | f, e =>
    if (e : Int) ≤ m.lastOffset then
      match m.atoms.get? e with
      | none => none
      | some a =>
        if a.mode = Mode.text ∧ isLD a.value then
          match f with
          | 0 => none
          | f + 1 => sgUp m f (e + 1)
        else some (e, true)
    else some (e, false)

/-- Downward scan of the numeric arm of selectGroup: decrease the offset
while the atom there can be part of a number (stopping at -1 when even the
atom at offset zero is numeric). -/
def numDown (m : Model) : Nat → Int
  | 0 => if isNumber (m.atoms.get? 0) then -1 else 0
  | s + 1 => if isNumber (m.atoms.get? (s + 1)) then numDown m s else ((s : Int) + 1)

/-- Upward scan of the numeric arm of selectGroup; none is fuel exhaustion
(unreachable with fuel above the document size). -/
def numUp (m : Model) : Nat → Nat → Option Nat
  | f, e =>
    if isNumber (m.atoms.get? e) then
      match f with
      | 0 => none
      | f + 1 => numUp m f (e + 1)
    else some e

/-- Tail of the text arm of selectGroup: run the upward scan from the
selection end, apply the done-flag adjustment, and select the word (or fall
back to a single character when no word was found). -/
def sgFinish (m : Model) (start1 : Int) : Option (Bool × Model) :=
  match sgUp m (m.size + 2) (max m.anchor m.position).toNat with
  | none => none
  | some p =>
    if (if p.2 then (p.1 : Int) - 1 else (p.1 : Int)) ≤ start1 then
      some (true, (m.setSel ((if p.2 then (p.1 : Int) - 1 else (p.1 : Int)) - 1)
        (if p.2 then (p.1 : Int) - 1 else (p.1 : Int))).2)
    else
      some (true, (m.setSel start1 (if p.2 then (p.1 : Int) - 1 else (p.1 : Int))).2)

/-- Embedding of selectGroup: in a text zone expand to the alphanumeric word
around the selection (falling back to a single character), in a math zone
expand a numeric run or select the full sibling list.  none models a crash
(missing atom at the cursor) or unreachable fuel exhaustion. -/
def selectGroup (m : Model) : Option (Bool × Model) :=
  if (m.at' m.position).map (·.mode) = some Mode.text then
    if min m.anchor m.position ≤ 0 then sgFinish m (min m.anchor m.position)
    else
      match sgDown m (min m.anchor m.position).toNat with
      | none => none
      | some s1 => sgFinish m (s1 : Int)
  else
    if isNumber (m.at' m.position) then
      if max m.anchor m.position < 0 then
        some (true, (m.setSel
          (if min m.anchor m.position < 0 then min m.anchor m.position
            else numDown m (min m.anchor m.position).toNat)
          (max m.anchor m.position - 1)).2)
      else
        match numUp m (m.size + 2) (max m.anchor m.position).toNat with
        | none => none
        | some e1 =>
          some (true, (m.setSel
            (if min m.anchor m.position < 0 then min m.anchor m.position
              else numDown m (min m.anchor m.position).toNat)
            ((e1 : Int) - 1)).2)
    else
      match m.at' m.position with
      | none => none
      | some _ =>
        some (true,
          (m.setSel ((m.firstSibO m.position.toNat : Nat) : Int)
            ((m.lastSibO m.position.toNat : Nat) : Int)).2)

/-- Ancestor walk of the script-depth computation: starting from the atom at
the cursor, count the atoms with a non-empty superscript or subscript branch
and track whether the innermost script seen was of the wanted kind. -/
def scriptDepthWalk (m : Model) (isSup : Bool) :
    Nat → Option Nat → Nat × Bool → Nat × Bool
  | 0, _, st => st
  | fuel + 1, curO, (cnt, was) =>
    match curO with
    | none => (cnt, was)
    | some c =>
      let esup := m.hasEmptyBranch c BranchName.superscript
      let esub := m.hasEmptyBranch c BranchName.subscript
      let cnt' := if ¬esup ∨ ¬esub then cnt + 1 else cnt
      let was' :=
        if isSup then (if ¬esup then true else if ¬esub then false else was)
        else (if ¬esup then false else if ¬esub then true else was)
      scriptDepthWalk m isSup fuel (m.parentN c) (cnt', was')

/-- Embedding of superscriptDepth: the nesting depth of scripts at the
cursor, zero unless the innermost script is a superscript. -/
def superscriptDepth (m : Model) : Nat :=
  let start : Option Nat := if (m.at' m.position).isSome then some m.position.toNat else none
  let (cnt, was) := scriptDepthWalk m true (m.size + 1) start (0, false)
  if was then cnt else 0

/-- Embedding of subscriptDepth (mirror of superscriptDepth). -/
def subscriptDepth (m : Model) : Nat :=
  let start : Option Nat := if (m.at' m.position).isSome then some m.position.toNat else none
  let (cnt, was) := scriptDepthWalk m false (m.size + 1) start (0, false)
  if was then cnt else 0

/-- Comparison of a computed script depth against a configured bound (none
models the default bound of positive infinity, which no depth reaches). -/
def depthGe (d : Nat) : Option Nat → Bool
  | some b => b ≤ d
  | none => false

/-- Embedding of moveToSuperscript: collapse the selection, refuse with a
plonk at the configured superscript nesting bound, otherwise reach (inserting
an adjacent script container if the current atom cannot carry scripts) a
target atom, ensure its superscript branch exists and select that branch. -/
def moveToSuperscript (m₀ : Model) (opts : OptionsRec) : Option CmdRes :=
  let m := (m₀.collapseSel true).2
  if depthGe (superscriptDepth m) opts.scriptDepthSup then
    some ⟨false, m, [Ann.plonk]⟩
  else
    match m.at' m.position with
    | none => none
    | some ta =>
      let tgt : Nat × Model :=
        if ta.limits ≠ some LimitsV.limits ∧ ta.limits ≠ some LimitsV.auto then
          let m1 :=
            if ¬(m.tyAt (m.position + 1) = some AtomType.msubsup) then
              m.addChildAfter m.position.toNat
                { ty := AtomType.msubsup, mode := ta.mode, value := ' ',
                  baseType := some ta.ty, parent := ta.parent, branch := ta.branch }
            else m
          ((m.position + 1).toNat, m1)
        else (m.position.toNat, m)
      let (m2, brs) := tgt.2.createBranch tgt.1 BranchName.superscript
      match brs.head? with
      | none => none
      | some s0 =>
        let r := m2.getSiblingsRange s0
        some ⟨true, (m2.setSel r.1 r.2).2, []⟩

/-- Embedding of moveToSubscript (mirror of moveToSuperscript, inserting a
plain script-container atom and creating the subscript branch). -/
def moveToSubscript (m₀ : Model) (opts : OptionsRec) : Option CmdRes :=
  let m := (m₀.collapseSel true).2
  if depthGe (subscriptDepth m) opts.scriptDepthSub then
    some ⟨false, m, [Ann.plonk]⟩
  else
    match m.at' m.position with
    | none => none
    | some ta =>
      let tgt : Nat × Model :=
        if ta.limits ≠ some LimitsV.limits ∧ ta.limits ≠ some LimitsV.auto then
          let m1 :=
            if ¬(m.tyAt (m.position + 1) = some AtomType.msubsup) then
              m.addChildAfter m.position.toNat
                { ty := AtomType.msubsup, mode := ta.mode, value := Char.ofNat 0x200B,
                  parent := ta.parent, branch := ta.branch }
            else m
          ((m.position + 1).toNat, m1)
        else (m.position.toNat, m)
      let (m2, brs) := tgt.2.createBranch tgt.1 BranchName.subscript
      match brs.head? with
      | none => none
      | some s0 =>
        let r := m2.getSiblingsRange s0
        some ⟨true, (m2.setSel r.1 r.2).2, []⟩

/-! Concrete documents used to instantiate the theorems. -/

/-- An ordinary math atom. -/
def mordA (v : Char) : FlatAtom := { ty := AtomType.mord, mode := Mode.math, value := v }

/-- The sentinel of the root body branch. -/
def rootSent : FlatAtom := { ty := AtomType.first, mode := Mode.math, value := ' ' }

/-- A text-run atom. -/
def textA (v : Char) : FlatAtom := { ty := AtomType.textRun, mode := Mode.text, value := v }

/-- A placeholder atom. -/
def phA : FlatAtom := { ty := AtomType.placeholder, mode := Mode.math, value := '?' }

/-- Hooks whose moveOut declines every exit (returns true, let the default
soft-fail handling run) and whose tabOut does the same. -/
def hkTrue : Hooks := ⟨fun _ => true, fun _ => true⟩

/-- Hooks that handle every exit themselves (returning false). -/
def hkFalse : Hooks := ⟨fun _ => false, fun _ => false⟩

/-- Document (a(b)c) of sibling fence atoms, caret at the start. -/
def exFence : Model :=
  { atoms := [rootSent,
      { ty := AtomType.mopen, mode := Mode.math, value := '(' },
      mordA 'a',
      { ty := AtomType.mopen, mode := Mode.math, value := '(' },
      mordA 'b',
      { ty := AtomType.mclose, mode := Mode.math, value := ')' },
      mordA 'c',
      { ty := AtomType.mclose, mode := Mode.math, value := ')' }],
    position := 0, anchor := 0 }

/-- Text document holding the words blue and yellow, caret at the start. -/
def exWords : Model :=
  { atoms := [rootSent, textA 'b', textA 'l', textA 'u', textA 'e', textA ' ',
      textA 'y', textA 'e', textA 'l', textA 'l', textA 'o', textA 'w'],
    position := 0, anchor := 0 }

/-- Math document with three ordinary atoms, caret after the first. -/
def exRun : Model :=
  { atoms := [rootSent, mordA 'a', mordA 'b', mordA 'c'], position := 1, anchor := 1 }

/-- Document with one ordinary atom, caret at the end. -/
def exEdge : Model :=
  { atoms := [rootSent, mordA 'a'], position := 1, anchor := 1 }

/-- Document of two adjacent placeholder atoms, caret at the end. -/
def exTwoPh : Model :=
  { atoms := [rootSent, phA, phA], position := 2, anchor := 2 }

/-- Document with an ordinary atom followed by a placeholder, caret between
them. -/
def exPh : Model :=
  { atoms := [rootSent, mordA 'a', phA], position := 1, anchor := 1 }

/-- Fraction with a denominator holding x and no numerator branch, caret in
the denominator: offsets are 0 the root sentinel, 1 the below sentinel, 2 the
atom x, 3 the fraction atom. -/
def exFrac : Model :=
  { atoms := [rootSent,
      { ty := AtomType.first, mode := Mode.math, value := ' ',
        parent := some 3, branch := BranchName.below },
      { ty := AtomType.mord, mode := Mode.math, value := 'x',
        parent := some 3, branch := BranchName.below },
      { ty := AtomType.genfrac, mode := Mode.math, value := 'f' }],
    position := 2, anchor := 2 }

/-- Atom with a superscript branch holding x, caret inside the superscript
(no ancestor sits in a below branch, and the cursor atom has a non-root
parent). -/
def exSup : Model :=
  { atoms := [rootSent,
      { ty := AtomType.first, mode := Mode.math, value := ' ',
        parent := some 3, branch := BranchName.superscript },
      { ty := AtomType.mord, mode := Mode.math, value := 'x',
        parent := some 3, branch := BranchName.superscript },
      mordA 'g'],
    position := 2, anchor := 2 }

/-- Document with an ordinary atom x, caret after it (no placeholder and no
empty branch anywhere). -/
def exLeap : Model :=
  { atoms := [rootSent, mordA 'x'], position := 1, anchor := 1 }

/-- Focus provider with two tabbable elements, the first focused. -/
def fpTwo : FocusProvider := ⟨[7, 8], some 7⟩

/-- Focus provider with a single tabbable element. -/
def fpOne : FocusProvider := ⟨[7], some 7⟩

/-- Math document with a non-collapsed selection, caret at the end. -/
def exSel : Model :=
  { atoms := [rootSent, mordA 'x', mordA 'y'], position := 2, anchor := 0 }

/-! Basic lemmas about the model queries. -/

/-- Successful outcome of a fuelled walk, fuel erased. -/
def walkOk : Walk CmdRes → Option CmdRes
  | Walk.done r _ => some r
  | Walk.crash => none
  | Walk.out => none

theorem at'_isSome_iff (m : Model) (i : Int) :
    (m.at' i).isSome ↔ 0 ≤ i ∧ i < (m.size : Int) := by
  unfold Model.at' Model.size
  split
  · simp only [Option.isSome_none, Bool.false_eq_true, false_iff]
    omega
  · rename_i h
    rw [Option.isSome_iff_exists]
    constructor
    · rintro ⟨a, ha⟩
      obtain ⟨hlt, -⟩ := List.get?_eq_some.mp ha
      omega
    · rintro ⟨-, hlt⟩
      have hnat : i.toNat < m.atoms.length := by omega
      exact ⟨_, List.get?_eq_get hnat⟩

theorem at'_eq_none_iff (m : Model) (i : Int) :
    m.at' i = none ↔ i < 0 ∨ (m.size : Int) ≤ i := by
  rw [← Option.not_isSome_iff_eq_none, at'_isSome_iff]
  constructor
  · intro h
    by_contra hc
    push_neg at hc
    exact h ⟨hc.1, by omega⟩
  · rintro h ⟨h0, hlt⟩
    omega

theorem at'_some_bounds (m : Model) (i : Int) (a : FlatAtom) (h : m.at' i = some a) :
    0 ≤ i ∧ i < (m.size : Int) :=
  (at'_isSome_iff m i).mp (by rw [h]; rfl)

theorem getq_some_lt (m : Model) (c : Nat) (a : FlatAtom) (h : m.atoms.get? c = some a) :
    c < m.size := by
  have := List.get?_eq_some.mp h
  exact this.1

theorem rightSibO_spec (m : Model) (i r : Nat) (h : m.rightSibO i = some r) :
    i < r ∧ r < m.size := by
  unfold Model.rightSibO at h
  have hp := List.find?_some h
  have hm := List.mem_of_find?_eq_some h
  have hr : r < m.atoms.length := List.mem_range.mp hm
  simp only [decide_eq_true_eq, Bool.and_eq_true] at hp
  exact ⟨by simpa using hp.1, hr⟩

theorem leftSibO_spec (m : Model) (i l : Nat) (h : m.leftSibO i = some l) : l < i := by
  unfold Model.leftSibO at h
  have hm : l ∈ (List.range i).filter (fun j => m.sameOwner i j) :=
    List.mem_of_mem_getLast? h
  have := List.mem_filter.mp hm
  exact List.mem_range.mp this.1

theorem collapseSel_atoms (m : Model) (b : Bool) :
    ((m.collapseSel b).2).atoms = m.atoms := by
  unfold Model.collapseSel
  split <;> rfl

theorem setSuggFalse_size (m : Model) (c : Nat) :
    (m.setSuggFalse c).size = m.size := by
  unfold Model.setSuggFalse
  rcases h : m.atoms.get? c with _ | a
  · rfl
  · simp [Model.size, List.length_set]

/-! Fuel-sufficiency lemmas: each loop of the embedding, run with enough fuel
for the offsets it can traverse, never exhausts the fuel, and exits with
enough remaining fuel for any following loop.  The invariant is
size ≤ fuel + offset for forward walks and offset < fuel for backward
walks. -/

theorem wbDo_fwd (m : Model) (P : FlatAtom → Bool) :
    ∀ (f : Nat) (i : Int), (m.size : Int) ≤ (f : Int) + i →
      wbDo m 1 P f i ≠ Walk.out ∧
        (∀ j rem, wbDo m 1 P f i = Walk.done j rem → (m.size : Int) ≤ (rem : Int) + j) := by
  intro f
  induction f with
  | zero =>
    intro i hi
    rw [wbDo]
    rcases h : m.at' i with _ | a
    · exact ⟨by simp, by simp⟩
    · have hc : ¬((m.at' (i + 1)).isSome ∧ P a = true) := by
        rintro ⟨hs, -⟩
        have := (at'_isSome_iff m (i + 1)).mp hs
        omega
      simp only [if_neg hc]
      refine ⟨by simp, ?_⟩
      intro j rem hj
      simp only [Walk.done.injEq] at hj
      omega
  | succ f ih =>
    intro i hi
    rw [wbDo]
    rcases h : m.at' i with _ | a
    · exact ⟨by simp, by simp⟩
    · by_cases hc : (m.at' (i + 1)).isSome ∧ P a = true
      · simp only [if_pos hc]
        exact ih (i + 1) (by omega)
      · simp only [if_neg hc]
        refine ⟨by simp, ?_⟩
        intro j rem hj
        simp only [Walk.done.injEq] at hj
        omega

theorem wbDo_bwd (m : Model) (P : FlatAtom → Bool) :
    ∀ (f : Nat) (i : Int), i < (f : Int) →
      wbDo m (-1) P f i ≠ Walk.out ∧
        (∀ j rem, wbDo m (-1) P f i = Walk.done j rem → j < (rem : Int)) := by
  intro f
  induction f with
  | zero =>
    intro i hi
    rw [wbDo]
    rcases h : m.at' i with _ | a
    · exact ⟨by simp, by simp⟩
    · have hb := at'_some_bounds m i a h
      exact absurd hb.1 (by omega)
  | succ f ih =>
    intro i hi
    rw [wbDo]
    rcases h : m.at' i with _ | a
    · exact ⟨by simp, by simp⟩
    · by_cases hc : (m.at' (i + -1)).isSome ∧ P a = true
      · simp only [if_pos hc]
        exact ih (i + -1) (by omega)
      · simp only [if_neg hc]
        refine ⟨by simp, ?_⟩
        intro j rem hj
        simp only [Walk.done.injEq] at hj
        omega

theorem wbDoC_fwd (m : Model) (P : FlatAtom → Bool) :
    ∀ (f : Nat) (i : Int), (m.size : Int) ≤ (f : Int) + i →
      wbDoC m 1 P f i ≠ Walk.out ∧
        (∀ j rem, wbDoC m 1 P f i = Walk.done j rem → (m.size : Int) ≤ (rem : Int) + j) := by
  intro f
  induction f with
  | zero =>
    intro i hi
    rw [wbDoC]
    rcases h : m.at' i with _ | a
    · refine ⟨by simp, ?_⟩
      intro j rem hj
      simp only [Walk.done.injEq] at hj
      omega
    · have hc : ¬((m.at' (i + 1)).isSome ∧ P a = true) := by
        rintro ⟨hs, -⟩
        have := (at'_isSome_iff m (i + 1)).mp hs
        omega
      simp only [if_neg hc]
      refine ⟨by simp, ?_⟩
      intro j rem hj
      simp only [Walk.done.injEq] at hj
      omega
  | succ f ih =>
    intro i hi
    rw [wbDoC]
    rcases h : m.at' i with _ | a
    · refine ⟨by simp, ?_⟩
      intro j rem hj
      simp only [Walk.done.injEq] at hj
      omega
    · by_cases hc : (m.at' (i + 1)).isSome ∧ P a = true
      · simp only [if_pos hc]
        exact ih (i + 1) (by omega)
      · simp only [if_neg hc]
        refine ⟨by simp, ?_⟩
        intro j rem hj
        simp only [Walk.done.injEq] at hj
        omega

theorem wbDoC_bwd (m : Model) (P : FlatAtom → Bool) :
    ∀ (f : Nat) (i : Int), i < (f : Int) →
      wbDoC m (-1) P f i ≠ Walk.out ∧
        (∀ j rem, wbDoC m (-1) P f i = Walk.done j rem → j < (rem : Int)) := by
  intro f
  induction f with
  | zero =>
    intro i hi
    rw [wbDoC]
    rcases h : m.at' i with _ | a
    · refine ⟨by simp, ?_⟩
      intro j rem hj
      simp only [Walk.done.injEq] at hj
      omega
    · have hb := at'_some_bounds m i a h
      exact absurd hb.1 (by omega)
  | succ f ih =>
    intro i hi
    rw [wbDoC]
    rcases h : m.at' i with _ | a
    · refine ⟨by simp, ?_⟩
      intro j rem hj
      simp only [Walk.done.injEq] at hj
      omega
    · by_cases hc : (m.at' (i + -1)).isSome ∧ P a = true
      · simp only [if_pos hc]
        exact ih (i + -1) (by omega)
      · simp only [if_neg hc]
        refine ⟨by simp, ?_⟩
        intro j rem hj
        simp only [Walk.done.injEq] at hj
        omega

theorem wbWhile_fwd (m : Model) (P : FlatAtom → Bool) :
    ∀ (f : Nat) (i : Int), (m.size : Int) ≤ (f : Int) + i →
      wbWhile m 1 P f i ≠ Walk.out ∧
        (∀ j rem, wbWhile m 1 P f i = Walk.done j rem → (m.size : Int) ≤ (rem : Int) + j) := by
  intro f
  induction f with
  | zero =>
    intro i hi
    rw [wbWhile]
    rcases h : m.at' i with _ | a
    · refine ⟨by simp, ?_⟩
      intro j rem hj
      simp only [Walk.done.injEq] at hj
      omega
    · have hb := at'_some_bounds m i a h
      exact absurd hb.2 (by omega)
  | succ f ih =>
    intro i hi
    rw [wbWhile]
    rcases h : m.at' i with _ | a
    · refine ⟨by simp, ?_⟩
      intro j rem hj
      simp only [Walk.done.injEq] at hj
      omega
    · by_cases hc : P a = true
      · simp only [if_pos hc]
        exact ih (i + 1) (by omega)
      · simp only [if_neg hc]
        refine ⟨by simp, ?_⟩
        intro j rem hj
        simp only [Walk.done.injEq] at hj
        omega

theorem wbWhile_bwd (m : Model) (P : FlatAtom → Bool) :
    ∀ (f : Nat) (i : Int), i < (f : Int) →
      wbWhile m (-1) P f i ≠ Walk.out ∧
        (∀ j rem, wbWhile m (-1) P f i = Walk.done j rem → j < (rem : Int)) := by
  intro f
  induction f with
  | zero =>
    intro i hi
    rw [wbWhile]
    rcases h : m.at' i with _ | a
    · refine ⟨by simp, ?_⟩
      intro j rem hj
      simp only [Walk.done.injEq] at hj
      omega
    · have hb := at'_some_bounds m i a h
      exact absurd hb.1 (by omega)
  | succ f ih =>
    intro i hi
    rw [wbWhile]
    rcases h : m.at' i with _ | a
    · refine ⟨by simp, ?_⟩
      intro j rem hj
      simp only [Walk.done.injEq] at hj
      omega
    · by_cases hc : P a = true
      · simp only [if_pos hc]
        exact ih (i + -1) (by omega)
      · simp only [if_neg hc]
        refine ⟨by simp, ?_⟩
        intro j rem hj
        simp only [Walk.done.injEq] at hj
        omega

theorem firstScan_suff (m : Model) :
    ∀ (f : Nat) (off : Int), off < (f : Int) → firstScan f m off ≠ Walk.out := by
  intro f
  induction f with
  | zero =>
    intro off hoff
    rw [firstScan]
    split
    · rename_i hpos
      exact absurd hpos (by omega)
    · simp
  | succ f ih =>
    intro off hoff
    rw [firstScan]
    split
    · rcases h : m.at' off with _ | a
      · simp
      · by_cases hty : a.ty = AtomType.first
        · simp only [if_pos hty]
          exact ih (off - 1) (by omega)
        · simp only [if_neg hty]
          simp
    · simp

theorem mathBwd_suff (m : Model) (ty0 : AtomType) :
    ∀ (f : Nat) (off : Int) (nextTy : Option AtomType), off < (f : Int) →
      mathBwd ty0 f m off nextTy ≠ Walk.out := by
  intro f
  induction f with
  | zero =>
    intro off nextTy hoff
    rw [mathBwd]
    split
    · rename_i hcond
      exact absurd hcond.1 (by omega)
    · simp
  | succ f ih =>
    intro off nextTy hoff
    rw [mathBwd]
    split
    · rename_i hcond
      by_cases hsub : m.tyAt off = some AtomType.msubsup
      · simp only [if_pos hsub]
        cases hl : m.leftSibO off.toNat with
        | none => simp [hl]
        | some l =>
          have hlt := leftSibO_spec m off.toNat l hl
          simp only [hl]
          cases ha : m.at' (l : Int) with
          | none => simp [ha]
          | some a =>
            simp only [ha]
            exact ih (l : Int) _ (by omega)
      · simp only [if_neg hsub]
        cases ha : m.at' (off - 1) with
        | none => simp [ha]
        | some a =>
          simp only [ha]
          exact ih (off - 1) _ (by omega)
    · simp

theorem mathFwd_suff (m : Model) (ty0 : AtomType) :
    ∀ (f : Nat) (off : Nat) (nextTy : Option AtomType),
      (m.size : Int) ≤ (f : Int) + off →
      mathFwd ty0 f m off nextTy ≠ Walk.out := by
  intro f
  induction f with
  | zero =>
    intro off nextTy hoff
    rw [mathFwd]
    split
    · rename_i hcond
      have h1 : (off : Int) ≤ m.lastOffset := hcond.1
      have h2 : m.lastOffset = (m.atoms.length : Int) - 1 := rfl
      have h3 : m.size = m.atoms.length := rfl
      exfalso
      omega
    · simp
  | succ f ih =>
    intro off nextTy hoff
    rw [mathFwd]
    split
    · cases hr : m.rightSibO off with
      | none =>
        simp only [hr]
        exact ih (off + 1) _ (by push_cast; omega)
      | some r =>
        have hrs := rightSibO_spec m off r hr
        simp only [hr]
        by_cases hty : m.tyAt (r : Int) = some AtomType.msubsup
        · simp only [if_pos hty]
          exact ih r _ (by omega)
        · simp only [if_neg hty]
          exact ih (off + 1) _ (by push_cast; omega)
    · simp

theorem fenceFwd_suff (m : Model) :
    ∀ (f c : Nat) (lvl : Int), (m.size : Int) ≤ (f : Int) + c + 1 →
      fenceFwd f m c lvl ≠ Walk.out := by
  intro f
  induction f with
  | zero =>
    intro c lvl hc
    rw [fenceFwd]
    cases h : m.atoms.get? c with
    | none => simp [h]
    | some a =>
      simp only [h]
      cases hr : m.rightSibO c with
      | none => simp [hr]
      | some r =>
        have hrs := rightSibO_spec m c r hr
        exfalso
        omega
  | succ f ih =>
    intro c lvl hc
    rw [fenceFwd]
    cases h : m.atoms.get? c with
    | none => simp [h]
    | some a =>
      simp only [h]
      cases hr : m.rightSibO c with
      | none => simp [hr]
      | some r =>
        have hrs := rightSibO_spec m c r hr
        simp only [hr]
        split
        · exact ih r _ (by omega)
        · simp

theorem fenceBwd_suff (m : Model) :
    ∀ (f c : Nat) (lvl : Int), c ≤ f → fenceBwd f m c lvl ≠ Walk.out := by
  intro f
  induction f with
  | zero =>
    intro c lvl hc
    rw [fenceBwd]
    cases h : m.atoms.get? c with
    | none => simp [h]
    | some a =>
      simp only [h]
      cases hl : m.leftSibO c with
      | none => simp [hl]
      | some l =>
        have := leftSibO_spec m c l hl
        exfalso
        omega
  | succ f ih =>
    intro c lvl hc
    rw [fenceBwd]
    cases h : m.atoms.get? c with
    | none => simp [h]
    | some a =>
      simp only [h]
      cases hl : m.leftSibO c with
      | none => simp [hl]
      | some l =>
        have hls := leftSibO_spec m c l hl
        simp only [hl]
        split
        · exact ih l _ (by omega)
        · simp

theorem sugLoop_suff :
    ∀ (f : Nat) (m : Model) (cur : Option Nat) (acc : Int),
      (∀ c, cur = some c → m.size ≤ f + c) →
      sugLoop f m cur acc ≠ Walk.out := by
  intro f
  induction f with
  | zero =>
    intro m cur acc hc
    cases cur with
    | none => rw [sugLoop]; simp
    | some c =>
      rw [sugLoop]
      cases h : m.atoms.get? c with
      | none => simp [h]
      | some a =>
        have hlt := getq_some_lt m c a h
        have := hc c rfl
        exfalso
        omega
  | succ f ih =>
    intro m cur acc hc
    cases cur with
    | none => rw [sugLoop]; simp
    | some c =>
      rw [sugLoop]
      cases h : m.atoms.get? c with
      | none => simp [h]
      | some a =>
        simp only [h]
        by_cases hty : a.ty = AtomType.cmd
        · simp only [if_pos hty]
          apply ih
          intro c' hc'
          have hrs := rightSibO_spec (m.setSuggFalse c) c c' hc'
          have hsz := setSuggFalse_size m c
          have := hc c rfl
          omega
        · simp only [if_neg hty]
          simp

theorem cmdLoop_fwd_suff (m : Model) :
    ∀ (f : Nat) (cur : Option Nat) (acc : Int),
      (∀ c, cur = some c → m.size ≤ f + c) →
      cmdLoop true f m cur acc ≠ Walk.out := by
  intro f
  induction f with
  | zero =>
    intro cur acc hc
    cases cur with
    | none => rw [cmdLoop]; simp
    | some c =>
      rw [cmdLoop]
      cases h : m.atoms.get? c with
      | none => simp [h]
      | some a =>
        have hlt := getq_some_lt m c a h
        have := hc c rfl
        exfalso
        omega
  | succ f ih =>
    intro cur acc hc
    cases cur with
    | none => rw [cmdLoop]; simp
    | some c =>
      rw [cmdLoop]
      cases h : m.atoms.get? c with
      | none => simp [h]
      | some a =>
        simp only [h]
        split
        · apply ih
          intro c' hc'
          have hrs := rightSibO_spec m c c' (by simpa using hc')
          have := hc c rfl
          omega
        · simp

theorem cmdLoop_bwd_suff (m : Model) :
    ∀ (f : Nat) (cur : Option Nat) (acc : Int),
      (∀ c, cur = some c → c < f) →
      cmdLoop false f m cur acc ≠ Walk.out := by
  intro f
  induction f with
  | zero =>
    intro cur acc hc
    cases cur with
    | none => rw [cmdLoop]; simp
    | some c =>
      have := hc c rfl
      exfalso
      omega
  | succ f ih =>
    intro cur acc hc
    cases cur with
    | none => rw [cmdLoop]; simp
    | some c =>
      rw [cmdLoop]
      cases h : m.atoms.get? c with
      | none => simp [h]
      | some a =>
        simp only [h]
        split
        · apply ih
          intro c' hc'
          have hls := leftSibO_spec m c c' (by simpa using hc')
          have := hc c rfl
          omega
        · simp

theorem wbo_fwd_suff (m : Model) (f : Nat) (i : Int)
    (hi : (m.size : Int) ≤ (f : Int) + i) : wbo m i false f ≠ Walk.out := by
  rw [wbo]
  cases h : m.at' i with
  | none => simp
  | some a0 =>
    simp only
    by_cases hm : a0.mode ≠ Mode.text
    · simp [if_pos hm]
    · simp only [if_neg hm, Bool.false_eq_true, if_false]
      by_cases hld : isLD a0.value = true
      · simp only [if_pos hld]
        have hdo := wbDo_fwd m pTextLD f i hi
        cases hw : wbDo m 1 pTextLD f i with
        | done j rem => simp [hw]
        | crash => simp [hw]
        | out =>
          exact absurd (by simpa using hw) hdo.1
      · simp only [if_neg hld]
        by_cases hws : isWS a0.value = true
        · simp only [if_pos hws]
          have hwh := wbWhile_fwd m pTextWS f i hi
          cases hw : wbWhile m 1 pTextWS f i with
          | done j rem =>
            simp only []
            by_cases hn : (m.at' j).isNone = true
            · rw [if_pos hn]
              simp
            · rw [if_neg hn]
              have hrem := hwh.2 j rem (by simpa using hw)
              have hdo := wbDo_fwd m pTextNotWS rem j hrem
              cases hw2 : wbDo m 1 pTextNotWS rem j with
              | done j2 rem2 => simp [hw2]
              | crash => simp [hw2]
              | out => exact absurd (by simpa using hw2) hdo.1
          | crash => simp [hw]
          | out => exact absurd (by simpa using hw) hwh.1
        · simp only [if_neg hws]
          have hwh := wbWhile_fwd m pTextNotWS f i hi
          cases hw : wbWhile m 1 pTextNotWS f i with
          | done j rem =>
            have hrem := hwh.2 j rem (by simpa using hw)
            have hdo := wbDoC_fwd m pTextWS rem j hrem
            cases hw2 : wbDoC m 1 pTextWS rem j with
            | done j2 rem2 => simp [hw2]
            | crash => simp [hw2]
            | out => exact absurd (by simpa using hw2) hdo.1
          | crash => simp [hw]
          | out => exact absurd (by simpa using hw) hwh.1

theorem wbo_bwd_suff (m : Model) (f : Nat) (i : Int)
    (hi : i < (f : Int)) : wbo m i true f ≠ Walk.out := by
  rw [wbo]
  cases h : m.at' i with
  | none => simp
  | some a0 =>
    simp only
    by_cases hm : a0.mode ≠ Mode.text
    · simp [if_pos hm]
    · simp only [if_neg hm, if_true]
      by_cases hld : isLD a0.value = true
      · simp only [if_pos hld]
        have hdo := wbDo_bwd m pTextLD f i hi
        cases hw : wbDo m (-1) pTextLD f i with
        | done j rem => simp [hw]
        | crash => simp [hw]
        | out => exact absurd (by simpa using hw) hdo.1
      · simp only [if_neg hld]
        by_cases hws : isWS a0.value = true
        · simp only [if_pos hws]
          have hwh := wbWhile_bwd m pTextWS f i hi
          cases hw : wbWhile m (-1) pTextWS f i with
          | done j rem =>
            simp only []
            by_cases hn : (m.at' j).isNone = true
            · rw [if_pos hn]
              simp
            · rw [if_neg hn]
              have hrem := hwh.2 j rem (by simpa using hw)
              have hdo := wbDo_bwd m pTextNotWS rem j hrem
              cases hw2 : wbDo m (-1) pTextNotWS rem j with
              | done j2 rem2 => simp [hw2]
              | crash => simp [hw2]
              | out => exact absurd (by simpa using hw2) hdo.1
          | crash => simp [hw]
          | out => exact absurd (by simpa using hw) hwh.1
        · simp only [if_neg hws]
          have hwh := wbWhile_bwd m pTextNotWS f i hi
          cases hw : wbWhile m (-1) pTextNotWS f i with
          | done j rem =>
            have hrem := hwh.2 j rem (by simpa using hw)
            have hdo := wbDoC_bwd m pTextWS rem j hrem
            cases hw2 : wbDoC m (-1) pTextWS rem j with
            | done j2 rem2 => simp [hw2]
            | crash => simp [hw2]
            | out => exact absurd (by simpa using hw2) hdo.1
          | crash => simp [hw]
          | out => exact absurd (by simpa using hw) hwh.1

theorem skipFinish_ne_out (m : Model) (prev : Int) (ext : Bool) (off : Int)
    (rem : Nat) : skipFinish m prev ext off rem ≠ Walk.out := by
  rw [skipFinish]
  split
  · split
    split <;> simp
  · split <;> simp

theorem skipDispatch_suff (m : Model) (prev : Int) (backward ext : Bool)
    (c : Nat) (f : Nat) (hc : c < m.size) (hf : m.size ≤ f) :
    skipDispatch m prev backward ext c f ≠ Walk.out := by
  rw [skipDispatch]
  cases h : m.atoms.get? c with
  | none => simp [h]
  | some a =>
    simp only [h]
    by_cases h1 : a.ty = AtomType.textRun
    · simp only [if_pos h1]
      cases backward with
      | false =>
        have hW := wbo_fwd_suff m f (c : Int) (by omega)
        cases hw : wbo m (c : Int) false f with
        | done off rem => simp [hw, skipFinish_ne_out]
        | crash => simp [hw]
        | out => exact absurd hw hW
      | true =>
        have hW := wbo_bwd_suff m f (c : Int) (by omega)
        cases hw : wbo m (c : Int) true f with
        | done off rem => simp [hw, skipFinish_ne_out]
        | crash => simp [hw]
        | out => exact absurd hw hW
    · simp only [if_neg h1]
      by_cases h2 : a.ty = AtomType.cmd
      · simp only [if_pos h2]
        by_cases h3 : a.isSuggestion = true
        · simp only [if_pos h3]
          have hW := sugLoop_suff f m (some c) (c : Int)
            (by intro x hx; cases hx; omega)
          cases hw : sugLoop f m (some c) (c : Int) with
          | done p rem =>
            cases p with
            | mk off m2 => simp [hw, skipFinish_ne_out]
          | crash => simp [hw]
          | out => exact absurd hw hW
        · simp only [if_neg h3]
          cases backward with
          | false =>
            simp only [Bool.false_eq_true, not_false_eq_true, if_true]
            cases hr : m.rightSibO c with
            | none => simp
            | some r =>
              have hrr := rightSibO_spec m c r hr
              simp only []
              split
              · have hW := cmdLoop_fwd_suff m f (some r) (c : Int)
                  (by intro x hx; cases hx; omega)
                cases hw : cmdLoop true f m (some r) (c : Int) with
                | done off rem => simp [hw, skipFinish_ne_out]
                | crash => simp [hw]
                | out => exact absurd hw hW
              · simp
          | true =>
            rw [if_neg (not_not_intro rfl)]
            cases hl : m.leftSibO c with
            | none => simp
            | some l =>
              have hll := leftSibO_spec m c l hl
              simp only []
              split
              · have hW := cmdLoop_bwd_suff m f (some l) (c : Int)
                  (by intro x hx; cases hx; omega)
                cases hw : cmdLoop false f m (some l) (c : Int) with
                | done off rem => simp [hw, skipFinish_ne_out]
                | crash => simp [hw]
                | out => exact absurd hw hW
              · simp
      · simp only [if_neg h2]
        by_cases h4 : (¬backward = true) ∧ a.ty = AtomType.mopen
        · simp only [if_pos h4]
          have hW := fenceFwd_suff m f c 0 (by omega)
          cases hw : fenceFwd f m c 0 with
          | done r rem =>
            cases hls : m.leftSibO r with
            | none => simp [hw, hls]
            | some l => simp [hw, hls, skipFinish_ne_out]
          | crash => simp [hw]
          | out => exact absurd hw hW
        · simp only [if_neg h4]
          by_cases h5 : (backward = true) ∧ a.ty = AtomType.mclose
          · simp only [if_pos h5]
            have hW := fenceBwd_suff m f c 0 (by omega)
            cases hw : fenceBwd f m c 0 with
            | done l rem => simp [hw, skipFinish_ne_out]
            | crash => simp [hw]
            | out => exact absurd hw hW
          · simp only [if_neg h5]
            cases backward with
            | true =>
              simp only [if_pos rfl]
              by_cases h6 : a.ty = AtomType.first
              · simp only [if_pos h6]
                have hW := firstScan_suff m f (c : Int) (by omega)
                cases hw : firstScan f m (c : Int) with
                | done off rem => simp [hw, skipFinish_ne_out]
                | crash => simp [hw]
                | out => exact absurd hw hW
              · simp only [if_neg h6]
                by_cases h7 : a.ty = AtomType.msubsup
                · simp only [if_pos h7]
                  cases hls : m.leftSibO c with
                  | none => simp
                  | some l =>
                    have hll := leftSibO_spec m c l hls
                    have hW := mathBwd_suff m (a.baseType.getD a.ty) f
                      ((l : Int) - 1) ((m.at' ((l : Int) - 1)).map (·.ty))
                      (by omega)
                    cases hw : mathBwd (a.baseType.getD a.ty) f m ((l : Int) - 1)
                        ((m.at' ((l : Int) - 1)).map (·.ty)) with
                    | done off rem => simp [hw, skipFinish_ne_out]
                    | crash => simp [hw]
                    | out => exact absurd hw hW
                · simp only [if_neg h7]
                  have hW := mathBwd_suff m (a.baseType.getD a.ty) f
                    ((c : Int) - 1) ((m.at' ((c : Int) - 1)).map (·.ty))
                    (by omega)
                  cases hw : mathBwd (a.baseType.getD a.ty) f m ((c : Int) - 1)
                      ((m.at' ((c : Int) - 1)).map (·.ty)) with
                  | done off rem => simp [hw, skipFinish_ne_out]
                  | crash => simp [hw]
                  | out => exact absurd hw hW
            | false =>
              simp only [Bool.false_eq_true, if_false]
              have hW := mathFwd_suff m a.ty f c (m.tyAt (c : Int)) (by omega)
              cases hw : mathFwd a.ty f m c (m.tyAt (c : Int)) with
              | done off rem => simp [hw, skipFinish_ne_out]
              | crash => simp [hw]
              | out => exact absurd hw hW

theorem skipF_suff (m₀ : Model) (backward ext : Bool) (f : Nat)
    (hf : m₀.size ≤ f) : skipF m₀ backward ext f ≠ Walk.out := by
  rw [skipF]
  simp only []
  set M := if ext = true then m₀ else (m₀.collapseSel (¬backward)).2 with hM
  have hsz : M.size = m₀.size := by
    rw [hM]
    cases ext with
    | true => simp
    | false => simp [Model.size, collapseSel_atoms]
  cases h0 : M.at' M.position with
  | none =>
    simp only []
    split <;> simp
  | some aPos =>
    simp only []
    cases backward with
    | true =>
      rw [if_pos rfl]
      simp only []
      apply skipDispatch_suff
      · have hb := at'_some_bounds M M.position aPos h0
        omega
      · omega
    | false =>
      rw [if_neg (by simp : ¬((false : Bool) = true))]
      by_cases hsub : aPos.ty = AtomType.msubsup
      · rw [if_pos hsub]
        cases hr : M.rightSibO M.position.toNat with
        | some r =>
          simp only []
          apply skipDispatch_suff
          · exact (rightSibO_spec M _ r hr).2
          · omega
        | none =>
          simp only []
          cases h1 : M.at' (M.position + 1) with
          | none => simp
          | some b =>
            simp only []
            apply skipDispatch_suff
            · have hb := at'_some_bounds M (M.position + 1) b h1
              omega
            · omega
      · rw [if_neg hsub]
        cases h1 : M.at' (M.position + 1) with
        | none => simp
        | some b =>
          simp only []
          apply skipDispatch_suff
          · have hb := at'_some_bounds M (M.position + 1) b h1
            omega
          · omega

/-! Helper lemmas for the move family. -/

theorem clearSuggestions_id (m : Model)
    (h : ∀ a ∈ m.atoms, a.isSuggestion = false) : m.clearSuggestions = m := by
  unfold Model.clearSuggestions
  rw [if_neg]
  simp only [List.any_eq_true, not_exists, not_and]
  intro a ha
  simp [h a ha]

theorem selIsPlaceholder_false (m : Model) (h : m.anchor = m.position) :
    m.selIsPlaceholder = false := by
  simp [Model.selIsPlaceholder, h]

theorem collapseSel_collapsed (m : Model) (b : Bool) (h : m.anchor = m.position) :
    m.collapseSel b = (false, m) := by
  simp [Model.collapseSel, h]

theorem hasBranch_false_spec (m : Model) (t : Nat) (b : BranchName)
    (h : m.hasBranch t b = false) :
    ∀ j, ¬(m.parentN j = some t ∧ m.branchN j = some b) := by
  intro j hj
  unfold Model.hasBranch at h
  have h2 : (m.branchChildren t b).isEmpty = true := by simpa using h
  rw [List.isEmpty_iff] at h2
  have hjlt : j < m.atoms.length := by
    rcases hq : m.atoms.get? j with _ | a
    · exfalso
      have : m.parentN j = none := by
        unfold Model.parentN
        rw [hq]
        rfl
      rw [this] at hj
      exact absurd hj.1 (by simp)
    · exact getq_some_lt m j a hq
  have : j ∈ m.branchChildren t b := by
    unfold Model.branchChildren
    rw [List.mem_filter]
    refine ⟨List.mem_range.mpr hjlt, ?_⟩
    simp [hj.1, hj.2]
  rw [h2] at this
  exact absurd this (List.not_mem_nil j)

/-- Computation of the forward / backward arm of move on a collapsed
selection whose corrected candidate offset is in bounds: the three
placeholder / plain outcomes of the source. -/
theorem moveFBAux_inbounds (hk : Hooks) (m : Model) (backward : Bool) (pos : Int)
    (hcol : m.anchor = m.position)
    (hadj : (if backward then bwdAdjust m else fwdAdjust m) = some pos)
    (h0 : 0 ≤ pos) (hle : pos ≤ m.lastOffset) :
    moveFBAux hk 2 m backward false =
      (if m.tyAt pos = some AtomType.placeholder then
        some ⟨true, (m.setSel (pos - 1) pos).2, [Ann.move m.position]⟩
      else if (match m.at' pos with
          | some _ =>
            match m.rightSibO pos.toNat with
            | some rs => (m.tyAt (rs : Int) = some AtomType.placeholder : Bool)
            | none => false
          | none => false) = true then
        some ⟨true, (m.setSel pos (pos + 1)).2, [Ann.move m.position]⟩
      else some ⟨true, m.posSet pos, [Ann.move m.position]⟩) := by
  rw [moveFBAux]
  rw [if_neg (by simp : ¬((false : Bool) = true))]
  rw [if_neg (by simp [selIsPlaceholder_false m hcol] : ¬(m.selIsPlaceholder = true))]
  rw [collapseSel_collapsed m _ hcol]
  simp only []
  rw [hadj]
  simp only []
  rw [if_neg (by omega : ¬(pos < 0 ∨ m.lastOffset < pos))]
  rw [if_neg (by simp : ¬((false : Bool) = true))]

/-- Computation of the forward / backward arm of move on a collapsed
selection whose corrected candidate offset is out of bounds: the moveOut
hook decides the result, and a plonk is emitted exactly when it returns
true. -/
theorem moveFBAux_oob (hk : Hooks) (m : Model) (backward : Bool) (pos : Int)
    (hcol : m.anchor = m.position)
    (hadj : (if backward then bwdAdjust m else fwdAdjust m) = some pos)
    (hoob : pos < 0 ∨ m.lastOffset < pos) (hsup : m.suppress = false) :
    moveFBAux hk 2 m backward false =
      some ⟨hk.moveOut (if backward then Dir4.backward else Dir4.forward), m,
        if hk.moveOut (if backward then Dir4.backward else Dir4.forward) then
          [Ann.plonk]
        else []⟩ := by
  rw [moveFBAux]
  rw [if_neg (by simp : ¬((false : Bool) = true))]
  rw [if_neg (by simp [selIsPlaceholder_false m hcol] : ¬(m.selIsPlaceholder = true))]
  rw [collapseSel_collapsed m _ hcol]
  simp only []
  rw [hadj]
  simp only []
  rw [if_pos hoob, hsup]
  simp

theorem sgDown_isSome (m : Model) :
    ∀ s, s < m.size → (sgDown m s).isSome = true := by
  intro s
  induction s with
  | zero => intro _; simp [sgDown]
  | succ s ih =>
    intro hs
    rw [sgDown]
    have : (s + 1) < m.atoms.length := hs
    rcases hq : m.atoms.get? (s + 1) with _ | a
    · exfalso
      rw [List.get?_eq_none] at hq
      omega
    · simp only [hq]
      split
      · exact ih (by omega)
      · simp

theorem sgUp_isSome (m : Model) :
    ∀ (f e : Nat), m.size ≤ f + e → (sgUp m f e).isSome = true := by
  intro f
  induction f with
  | zero =>
    intro e he
    rw [sgUp]
    split
    · rename_i hle
      have h2 : m.lastOffset = (m.atoms.length : Int) - 1 := rfl
      have h3 : m.size = m.atoms.length := rfl
      exfalso
      omega
    · simp
  | succ f ih =>
    intro e he
    rw [sgUp]
    split
    · rename_i hle
      have h2 : m.lastOffset = (m.atoms.length : Int) - 1 := rfl
      have h3 : m.size = m.atoms.length := rfl
      cases hq : m.atoms.get? e with
      | none =>
        exfalso
        rw [List.get?_eq_none] at hq
        simp only [Model.lastOffset] at hle
        omega
      | some a =>
        simp only [hq]
        split
        · exact ih (e + 1) (by omega)
        · simp
    · simp

theorem numUp_isSome (m : Model) :
    ∀ (f e : Nat), m.size ≤ f + e → (numUp m f e).isSome = true := by
  intro f
  induction f with
  | zero =>
    intro e he
    rw [numUp]
    split
    · rename_i hnum
      rcases hq : m.atoms.get? e with _ | a
      · rw [hq] at hnum
        simp [isNumber] at hnum
      · have := getq_some_lt m e a hq
        exfalso
        omega
    · simp
  | succ f ih =>
    intro e he
    rw [numUp]
    split
    · exact ih (e + 1) (by omega)
    · simp

theorem sgFinish_true (m : Model) (s : Int) :
    ∃ m', sgFinish m s = some (true, m') := by
  rw [sgFinish]
  obtain ⟨p, hp⟩ := Option.isSome_iff_exists.mp
    (sgUp_isSome m (m.size + 2) (max m.anchor m.position).toNat (by omega))
  rw [hp]
  simp only []
  split <;> split <;> exact ⟨_, rfl⟩

/-- selectGroup reports success on every input with a valid cursor: no path
of the source returns false. -/
theorem selectGroup_true (m : Model) (hpos : (m.at' m.position).isSome = true) :
    ∃ m', selectGroup m = some (true, m') := by
  have hb := (at'_isSome_iff m m.position).mp hpos
  rw [selectGroup]
  split
  · -- text arm
    by_cases hc : min m.anchor m.position ≤ 0
    · rw [if_pos hc]
      exact sgFinish_true m _
    · rw [if_neg hc]
      have hlt : (min m.anchor m.position).toNat < m.size := by
        have : min m.anchor m.position ≤ m.position := min_le_right _ _
        omega
      obtain ⟨s1, hs1⟩ := Option.isSome_iff_exists.mp (sgDown_isSome m _ hlt)
      rw [hs1]
      exact sgFinish_true m _
  · -- math arm
    split
    · -- numeric run
      by_cases hc : max m.anchor m.position < 0
      · rw [if_pos hc]
        exact ⟨_, rfl⟩
      · rw [if_neg hc]
        obtain ⟨e1, he1⟩ := Option.isSome_iff_exists.mp
          (numUp_isSome m (m.size + 2) (max m.anchor m.position).toNat (by omega))
        rw [he1]
        exact ⟨_, rfl⟩
    · -- sibling span
      cases hq : m.at' m.position with
      | none =>
        exfalso
        rw [hq] at hpos
        exact absurd hpos (by simp)
      | some a =>
        simp only [hq]
        exact ⟨_, rfl⟩

/-- moveUpward with no ancestor in a below branch and a cursor whose parent
is a real atom (a grandparent exists): the source falls through, returning
true with no announcement and no change. -/
theorem moveUpward_noanc (m : Model) (hk : Hooks) (a : FlatAtom) (p : Nat)
    (hcol : m.anchor = m.position)
    (hanc : ancWalk m BranchName.below (m.size + 1) m.position = some none)
    (ha : m.at' m.position = some a) (hpar : a.parent = some p) :
    moveUpward m false hk = some ⟨true, m, []⟩ := by
  rw [moveUpward]
  have hcc : (m.collapseSel false).2 = m := by
    rw [collapseSel_collapsed m false hcol]
  rw [hcc, hanc]
  simp only []
  rw [ha]
  simp only []
  rw [hpar]

/-- moveDownward mirror of moveUpward_noanc. -/
theorem moveDownward_noanc (m : Model) (hk : Hooks) (a : FlatAtom) (p : Nat)
    (hcol : m.anchor = m.position)
    (hanc : ancWalk m BranchName.above (m.size + 1) m.position = some none)
    (ha : m.at' m.position = some a) (hpar : a.parent = some p) :
    moveDownward m false hk = some ⟨true, m, []⟩ := by
  rw [moveDownward]
  have hcc : (m.collapseSel true).2 = m := by
    rw [collapseSel_collapsed m true hcol]
  rw [hcc, hanc]
  simp only []
  rw [ha]
  simp only []
  rw [hpar]

/-! Lemmas about insertion into the flattening (used by the vertical-move
branch-creation claim). -/

theorem insertAt_length {α : Type} (a : α) :
    ∀ (l : List α) (n : Nat), (insertAt l n a).length = l.length + 1 := by
  intro l
  induction l with
  | nil => intro n; cases n <;> rfl
  | cons b l ih =>
    intro n
    cases n with
    | zero => rfl
    | succ n => simp [insertAt, ih n]

theorem insertAt_get_self {α : Type} (a : α) :
    ∀ (l : List α) (n : Nat), n ≤ l.length → (insertAt l n a).get? n = some a := by
  intro l
  induction l with
  | nil =>
    intro n hn
    have : n = 0 := by simpa using hn
    subst this
    rfl
  | cons b l ih =>
    intro n hn
    cases n with
    | zero => rfl
    | succ n => simpa [insertAt] using ih n (by simpa using hn)

theorem insertAt_get_lt {α : Type} (a : α) :
    ∀ (l : List α) (n j : Nat), j < n → n ≤ l.length →
      (insertAt l n a).get? j = l.get? j := by
  intro l
  induction l with
  | nil =>
    intro n j hj hn
    simp only [List.length_nil, Nat.le_zero] at hn
    omega
  | cons b l ih =>
    intro n j hj hn
    cases n with
    | zero => omega
    | succ n =>
      cases j with
      | zero => rfl
      | succ j => simpa [insertAt] using ih n j (by omega) (by simpa using hn)

theorem insertAt_get_succ {α : Type} (a : α) :
    ∀ (l : List α) (n j : Nat), n ≤ j →
      (insertAt l n a).get? (j + 1) = l.get? j := by
  intro l
  induction l with
  | nil =>
    intro n j hj
    cases n <;> simp [insertAt]
  | cons b l ih =>
    intro n j hj
    cases n with
    | zero => rfl
    | succ n =>
      cases j with
      | zero => omega
      | succ j => simpa [insertAt] using ih n j (by omega)

/-! Claim theorems. -/

/-- C3: for the balanced sibling fence sequence ( a ( b ) c ) with the caret
just before the outer open fence (offset 0), skip forward reports success and
lands the collapsed caret at offset 6, just before the matching outer close
fence, announcing the move from the previous position. -/
theorem claim_C3_fence_skip :
    walkOk (skipF exFence false false 8) =
      some ⟨true, { exFence with position := 6, anchor := 6 }, [Ann.move 0]⟩ := by
  decide

/-- C5: in the text run blue yellow with the caret at offset 0, skip forward
lands just after blue (offset 4, before the space), and a second skip forward
from there lands just after yellow (offset 11). -/
theorem claim_C5_word_skip :
    walkOk (skipF exWords false false 12) =
      some ⟨true, { exWords with position := 4, anchor := 4 }, [Ann.move 0]⟩ ∧
    walkOk (skipF { exWords with position := 4, anchor := 4 } false false 12) =
      some ⟨true, { exWords with position := 11, anchor := 11 }, [Ann.move 4]⟩ := by
  constructor
  · decide
  · decide

/-- C4: skip run with fuel lastOffset + 1 never exhausts it: every walking
loop of skip advances monotonically through the offset range, so the whole
command performs at most lastOffset + 1 walking steps, for every model,
direction and extend flag (and any larger fuel bound as well). -/
theorem claim_C4_skip_terminates (m : Model) (backward ext : Bool) (f : Nat)
    (hf : m.lastOffset + 1 ≤ (f : Int)) : skipF m backward ext f ≠ Walk.out := by
  apply skipF_suff
  have h2 : m.lastOffset = (m.atoms.length : Int) - 1 := rfl
  have h3 : m.size = m.atoms.length := rfl
  omega

/-- Witness for C4 at a concrete document: the fence document of C3 with fuel
equal to its lastOffset + 1. -/
theorem claim_C4_witness :
    exFence.lastOffset + 1 ≤ ((8 : Nat) : Int) ∧
      skipF exFence false false 8 ≠ Walk.out :=
  ⟨by decide, claim_C4_skip_terminates exFence false false 8 (by decide)⟩

/-- C1 counterexample: at the right edge of a one-atom document, a forward
move with a moveOut hook that handles the exit (returns false) returns false
while emitting no notification at all; the claim demands that a false return
coincide with an emitted plonk, so the claim as stated is false on this
input. -/
theorem claim_C1_counterexample :
    move4 exEdge Dir4.forward false hkFalse = some ⟨false, exEdge, []⟩ := by
  decide

/-- C1 (amended): on the out-of-bounds path of a forward/backward move with a
collapsed selection, move returns exactly the moveOut hook's boolean, leaves
the model unchanged, and emits a plonk exactly when that boolean is true
(hook declined); a false return therefore comes with no notification. -/
theorem claim_C1_amended (m : Model) (hk : Hooks) (backward : Bool) (pos : Int)
    (hno : ∀ a ∈ m.atoms, a.isSuggestion = false)
    (hcol : m.anchor = m.position) (hsup : m.suppress = false)
    (hadj : (if backward then bwdAdjust m else fwdAdjust m) = some pos)
    (hoob : pos < 0 ∨ m.lastOffset < pos) :
    move4 m (if backward then Dir4.backward else Dir4.forward) false hk =
      some ⟨hk.moveOut (if backward then Dir4.backward else Dir4.forward), m,
        if hk.moveOut (if backward then Dir4.backward else Dir4.forward) then
          [Ann.plonk]
        else []⟩ := by
  have hcs := clearSuggestions_id m hno
  cases backward with
  | false =>
    show moveFBAux hk 2 m.clearSuggestions false false = _
    rw [hcs]
    exact moveFBAux_oob hk m false pos hcol hadj hoob hsup
  | true =>
    show moveFBAux hk 2 m.clearSuggestions true false = _
    rw [hcs]
    exact moveFBAux_oob hk m true pos hcol hadj hoob hsup

/-- Witness for C1 (amended) at the one-atom document with a declining hook:
the move returns true and plonks. -/
theorem claim_C1_witness :
    (∀ a ∈ exEdge.atoms, a.isSuggestion = false) ∧
      move4 exEdge (if false then Dir4.backward else Dir4.forward) false hkTrue =
        some ⟨hkTrue.moveOut (if false then Dir4.backward else Dir4.forward),
          exEdge,
          if hkTrue.moveOut (if false then Dir4.backward else Dir4.forward) then
            [Ann.plonk]
          else []⟩ :=
  ⟨by decide,
    claim_C1_amended exEdge hkTrue false 2 (by decide) (by decide) (by decide)
      (by decide) (by decide)⟩

/-- C9 counterexample: with the caret inside a superscript branch (so no
ancestor sits in a below branch, but the cursor atom has a real parent),
moveUpward is a no-op that returns true with no plonk and no state change;
the claim demands false plus a plonk for such no-op boundary conditions, so
the claim as stated is false on this input. -/
theorem claim_C9_counterexample :
    moveUpward exSup false hkTrue = some ⟨true, exSup, []⟩ := by
  decide

/-- C9 (amended): the no-op boundary outcomes of these operations do not
follow the false-plus-plonk pattern: selectGroup reports success on every
input with a valid cursor (it always selects something or leaves the
selection alone), and moveUpward / moveDownward with no qualifying ancestor
and a below-top-level cursor return true with no notification and no state
change. -/
theorem claim_C9_amended :
    (∀ m : Model, (m.at' m.position).isSome = true →
      ∃ m', selectGroup m = some (true, m')) ∧
    (∀ (m : Model) (hk : Hooks) (a : FlatAtom) (p : Nat),
      m.anchor = m.position →
      ancWalk m BranchName.below (m.size + 1) m.position = some none →
      m.at' m.position = some a → a.parent = some p →
      moveUpward m false hk = some ⟨true, m, []⟩) ∧
    (∀ (m : Model) (hk : Hooks) (a : FlatAtom) (p : Nat),
      m.anchor = m.position →
      ancWalk m BranchName.above (m.size + 1) m.position = some none →
      m.at' m.position = some a → a.parent = some p →
      moveDownward m false hk = some ⟨true, m, []⟩) :=
  ⟨fun m h => selectGroup_true m h,
    fun m hk a p h1 h2 h3 h4 => moveUpward_noanc m hk a p h1 h2 h3 h4,
    fun m hk a p h1 h2 h3 h4 => moveDownward_noanc m hk a p h1 h2 h3 h4⟩

/-- Witness for C9 (amended) at concrete documents: a math run for
selectGroup, a superscript cursor for moveUpward, a denominator cursor for
moveDownward. -/
theorem claim_C9_witness :
    (∃ m', selectGroup exRun = some (true, m')) ∧
      moveUpward exSup false hkTrue = some ⟨true, exSup, []⟩ ∧
      moveDownward exFrac false hkTrue = some ⟨true, exFrac, []⟩ :=
  ⟨claim_C9_amended.1 exRun (by decide),
    claim_C9_amended.2.1 exSup hkTrue
      { ty := AtomType.mord, mode := Mode.math, value := 'x',
        parent := some 3, branch := BranchName.superscript } 3
      (by decide) (by decide) (by decide) (by decide),
    claim_C9_amended.2.2 exFrac hkTrue
      { ty := AtomType.mord, mode := Mode.math, value := 'x',
        parent := some 3, branch := BranchName.below } 3
      (by decide) (by decide) (by decide) (by decide)⟩

/-- C10 counterexample: with a non-collapsed selection and a superscript
depth bound of zero, moveToSuperscript returns false and plonks but first
collapses the selection forward, changing the anchor from 0 to 2; the claim
says the selection is left unchanged, so the claim as stated is false on
this input. -/
theorem claim_C10_counterexample :
    moveToSuperscript exSel { scriptDepthSup := some 0 } =
      some ⟨false, { exSel with position := 2, anchor := 2 }, [Ann.plonk]⟩ ∧
      exSel.anchor = 0 := by
  constructor
  · decide
  · decide

/-- C10 (amended): when the computed superscript (resp. subscript) depth
after the initial forward collapse reaches the configured bound,
moveToSuperscript (resp. moveToSubscript) returns false and announces a
plonk, creating no branch (the atom list is unchanged); the selection is
first collapsed forward, which is the only state change. -/
theorem claim_C10_amended :
    (∀ (m : Model) (opts : OptionsRec),
      depthGe (superscriptDepth ((m.collapseSel true).2)) opts.scriptDepthSup = true →
      moveToSuperscript m opts = some ⟨false, (m.collapseSel true).2, [Ann.plonk]⟩ ∧
        ((m.collapseSel true).2).atoms = m.atoms) ∧
    (∀ (m : Model) (opts : OptionsRec),
      depthGe (subscriptDepth ((m.collapseSel true).2)) opts.scriptDepthSub = true →
      moveToSubscript m opts = some ⟨false, (m.collapseSel true).2, [Ann.plonk]⟩ ∧
        ((m.collapseSel true).2).atoms = m.atoms) := by
  constructor
  · intro m opts h
    constructor
    · rw [moveToSuperscript]
      simp only []
      rw [if_pos h]
    · exact collapseSel_atoms m true
  · intro m opts h
    constructor
    · rw [moveToSubscript]
      simp only []
      rw [if_pos h]
    · exact collapseSel_atoms m true

/-- Witness for C10 (amended) at the concrete selection document with a zero
superscript bound. -/
theorem claim_C10_witness :
    moveToSuperscript exSel { scriptDepthSup := some 0 } =
      some ⟨false, (exSel.collapseSel true).2, [Ann.plonk]⟩ ∧
      ((exSel.collapseSel true).2).atoms = exSel.atoms :=
  (claim_C10_amended.1 exSel { scriptDepthSup := some 0 } (by decide))

/-- C8 counterexample: leap forward from after x with no in-document
candidate, a tabOut hook returning true, and a focus provider holding two
tabbable elements with the first focused: the operation moves the host focus
to the second element and returns true with no plonk; the claim demands a
false return and a plonk whenever tabOut returns true, so the claim as
stated is false on this input. -/
theorem claim_C8_counterexample :
    leap exLeap false hkTrue fpTwo true = some (⟨true, exLeap, []⟩, some 8) := by
  decide

/-- C8 (amended): on the forward leap path with no in-document candidate and
a tabOut hook returning true (default handling requested), the model is left
unchanged and the boolean outcome is decided by the host focus state: the
operation returns true with no notification exactly when the focused host
element has a successor in the tab order (and that successor receives
focus); in every other focus state — no focused element, a single tabbable
element, or a focused element last in or absent from the tab order — it
returns false and emits a plonk.  The hypothesis on the provider excludes
the host state that crashes the source (a focused element with an empty
tabbable list). -/
theorem claim_C8_amended (m : Model) (hk : Hooks) (fp : FocusProvider)
    (hanc : ¬(m.tyAt m.anchor = some AtomType.placeholder))
    (hph : (getAllFrom m (m.position + 1)).filter (leapCandidate m) = [])
    (htab : hk.tabOut true = true)
    (hcr : fp.active = none ∨ fp.tabbable ≠ []) :
    ∃ (r : Bool) (foc : Option Nat),
      leap m false hk fp true =
        some (⟨r, m, if r then [] else [Ann.plonk]⟩, foc) ∧
      (r = true ↔ ∃ act k, fp.active = some act ∧
        fp.tabbable.indexOf? act = some k ∧ k + 1 < fp.tabbable.length) ∧
      (∀ act k, r = true → fp.active = some act →
        fp.tabbable.indexOf? act = some k → foc = fp.tabbable.get? (k + 1)) := by
  have hpath : ∀ (res : Option (CmdRes × Option Nat)),
      (match fp.active with
       | none => some (⟨false, m, [Ann.plonk]⟩, none)
       | some act =>
         if fp.tabbable.length = 1 then some (⟨false, m, [Ann.plonk]⟩, none)
         else
           let i0 : Int := (fp.tabbable.indexOf? act).elim (-1) (fun j => (j : Int))
           let len : Int := fp.tabbable.length
           let i1 := i0 + 1
           let i2 := if i1 < 0 then len - 1 else i1
           let i3 := if len ≤ i2 then 0 else i2
           match fp.tabbable.get? i3.toNat with
           | none => none
           | some el =>
             if i3 = 0 then some (⟨false, m, [Ann.plonk]⟩, some el)
             else some (⟨true, m, []⟩, some el)) = res →
      leap m false hk fp true = res := by
    intro res h
    rw [leap]
    simp only []
    rw [if_neg hanc]
    simp only [Bool.false_eq_true, if_false]
    rw [hph]
    simp only []
    rw [if_neg (by simp [htab] :
      ¬(((!(true : Bool)) || (!hk.tabOut (!(false : Bool)))) = true))]
    exact h
  cases hact : fp.active with
  | none =>
    refine ⟨false, none,
      hpath _ (by rw [hact]; simp only [Bool.false_eq_true, if_false]), ?_, ?_⟩
    · constructor
      · intro h; exact absurd h (by decide)
      · rintro ⟨a, k, ha, -, -⟩
        exact Option.noConfusion ha
    · intro a k h
      exact absurd h (by decide)
  | some act =>
    by_cases hlen1 : fp.tabbable.length = 1
    · refine ⟨false, none,
        hpath _ (by
          rw [hact]
          simp only [Bool.false_eq_true, if_false]
          rw [if_pos hlen1]), ?_, ?_⟩
      · constructor
        · intro h; exact absurd h (by decide)
        · rintro ⟨a, k, -, -, hk1⟩
          omega
      · intro a k h
        exact absurd h (by decide)
    · have hne : fp.tabbable ≠ [] := by
        rcases hcr with h | h
        · rw [hact] at h; exact Option.noConfusion h
        · exact h
      obtain ⟨e, es, htb⟩ : ∃ e es, fp.tabbable = e :: es := by
        cases htb : fp.tabbable with
        | nil => exact absurd htb hne
        | cons e es => exact ⟨e, es, rfl⟩
      cases hidx : fp.tabbable.indexOf? act with
      | none =>
        refine ⟨false, some e, hpath _ ?_, ?_, ?_⟩
        · rw [hact]
          simp only [Bool.false_eq_true, if_false]
          rw [if_neg hlen1, hidx]
          simp only [Option.elim_none]
          rw [htb]
          rfl
        · constructor
          · intro h; exact absurd h (by decide)
          · rintro ⟨a, k, ha, hi, -⟩
            have ha' := Option.some.inj ha
            subst ha'
            rw [hidx] at hi
            exact Option.noConfusion hi
        · intro a k h
          exact absurd h (by decide)
      | some k =>
        have hn1 : ¬((k : Int) + 1 < 0) := by omega
        by_cases hsucc : k + 1 < fp.tabbable.length
        · obtain ⟨el, hel⟩ : ∃ el, fp.tabbable.get? (k + 1) = some el :=
            ⟨fp.tabbable.get ⟨k + 1, hsucc⟩, List.get?_eq_get hsucc⟩
          refine ⟨true, some el, hpath _ ?_, ?_, ?_⟩
          · rw [hact]
            rw [if_pos (rfl : (true : Bool) = true)]
            simp only []
            rw [if_neg hlen1, hidx]
            simp only [Option.elim_some]
            have hn2 : ¬((fp.tabbable.length : Int) ≤ (k : Int) + 1) := by
              omega
            simp only [if_neg hn1, if_neg hn2]
            rw [(by omega : ((k : Int) + 1).toNat = k + 1), hel]
            simp only [if_neg (by omega : ¬((k : Int) + 1 = 0))]
          · exact ⟨fun _ => ⟨act, k, rfl, hidx, hsucc⟩, fun _ => rfl⟩
          · intro a k' _ ha hi
            have ha' := Option.some.inj ha
            subst ha'
            rw [hidx] at hi
            have hk' := Option.some.inj hi
            rw [← hk', hel]
        · refine ⟨false, some e, hpath _ ?_, ?_, ?_⟩
          · rw [hact]
            simp only [Bool.false_eq_true, if_false]
            rw [if_neg hlen1, hidx]
            simp only [Option.elim_some]
            have hn2 : ((fp.tabbable.length : Int)) ≤ (k : Int) + 1 := by
              omega
            simp only [if_neg hn1, if_pos hn2]
            rw [htb]
            rfl
          · constructor
            · intro h; exact absurd h (by decide)
            · rintro ⟨a, k', ha, hi, hk1⟩
              have ha' := Option.some.inj ha
              subst ha'
              rw [hidx] at hi
              have hk' := Option.some.inj hi
              omega
          · intro a k' h
            exact absurd h (by decide)

/-- Witness for C8 (amended) at the one-atom document with two tabbable
elements, the first focused: the focused element has a successor, so leap
advances the host focus and returns true with no notification. -/
theorem claim_C8_witness :
    ∃ (r : Bool) (foc : Option Nat),
      leap exLeap false hkTrue fpTwo true =
        some (⟨r, exLeap, if r then [] else [Ann.plonk]⟩, foc) ∧
      (r = true ↔ ∃ act k, fpTwo.active = some act ∧
        fpTwo.tabbable.indexOf? act = some k ∧ k + 1 < fpTwo.tabbable.length) ∧
      (∀ act k, r = true → fpTwo.active = some act →
        fpTwo.tabbable.indexOf? act = some k → foc = fpTwo.tabbable.get? (k + 1)) :=
  claim_C8_amended exLeap hkTrue fpTwo (by decide) (by decide) (by decide)
    (Or.inr (by decide))

/-- C6 counterexample: moving backward over two adjacent placeholders, the
corrected destination is offset 1, whose right sibling (offset 2) is a
placeholder; the claim says a backward move then selects that right sibling
(selection from 1 to 2), but the move selects the destination atom itself
(selection from 0 to 1), because the destination-atom check runs first in
both directions; so the claim as stated is false on this input. -/
theorem claim_C6_counterexample :
    bwdAdjust exTwoPh = some 1 ∧
      exTwoPh.rightSibO 1 = some 2 ∧
      exTwoPh.tyAt 2 = some AtomType.placeholder ∧
      move4 exTwoPh Dir4.backward false hkTrue =
        some ⟨true, { exTwoPh with position := 1, anchor := 0 }, [Ann.move 2]⟩ :=
  ⟨by decide, by decide, by decide, by decide⟩

/-- C6 (amended): for every in-bounds forward or backward move with a
collapsed selection and extend false, the placeholder checks are
direction-independent and ordered: if the destination atom is a placeholder
the move selects it (selection from pos - 1 to pos); otherwise if the
destination's right sibling is a placeholder the move selects that sibling
(selection from pos to pos + 1); otherwise the cursor collapses onto the
destination. -/
theorem claim_C6_amended (m : Model) (hk : Hooks) (backward : Bool) (pos : Int)
    (hno : ∀ a ∈ m.atoms, a.isSuggestion = false)
    (hcol : m.anchor = m.position)
    (hadj : (if backward then bwdAdjust m else fwdAdjust m) = some pos)
    (h0 : 0 ≤ pos) (hle : pos ≤ m.lastOffset) :
    move4 m (if backward then Dir4.backward else Dir4.forward) false hk =
      (if m.tyAt pos = some AtomType.placeholder then
        some ⟨true, (m.setSel (pos - 1) pos).2, [Ann.move m.position]⟩
      else if (match m.at' pos with
          | some _ =>
            match m.rightSibO pos.toNat with
            | some rs => (m.tyAt (rs : Int) = some AtomType.placeholder : Bool)
            | none => false
          | none => false) = true then
        some ⟨true, (m.setSel pos (pos + 1)).2, [Ann.move m.position]⟩
      else some ⟨true, m.posSet pos, [Ann.move m.position]⟩) := by
  have hcs := clearSuggestions_id m hno
  cases backward with
  | false =>
    show moveFBAux hk 2 m.clearSuggestions false false = _
    rw [hcs]
    exact moveFBAux_inbounds hk m false pos hcol hadj h0 hle
  | true =>
    show moveFBAux hk 2 m.clearSuggestions true false = _
    rw [hcs]
    exact moveFBAux_inbounds hk m true pos hcol hadj h0 hle

/-- Witness for C6 (amended): in the document a-then-placeholder with the
caret between them, the forward move selects the placeholder at offset 2
instead of collapsing onto it. -/
theorem claim_C6_witness :
    move4 exPh (if false then Dir4.backward else Dir4.forward) false hkTrue =
      some ⟨true, { exPh with position := 2, anchor := 1 }, [Ann.move 1]⟩ :=
  (claim_C6_amended exPh hkTrue false 2 (by decide) (by decide) (by decide)
    (by decide) (by decide)).trans (by decide)

theorem setSel_pa (m : Model) (a b : Int) (h0a : 0 ≤ a) (hal : a ≤ m.lastOffset)
    (h0b : 0 ≤ b) (hbl : b ≤ m.lastOffset) :
    ((m.setSel a b).2).anchor = a ∧ ((m.setSel a b).2).position = b ∧
      ((m.setSel a b).2).atoms = m.atoms := by
  rw [Model.setSel]
  have ha' : max 0 (min a m.lastOffset) = a := by omega
  have hb' : max 0 (min b m.lastOffset) = b := by omega
  rw [ha', hb']
  by_cases h : m.anchor = a ∧ m.position = b
  · rw [if_pos h]
    exact ⟨h.1, h.2, rfl⟩
  · rw [if_neg h]
    exact ⟨rfl, rfl, rfl⟩

theorem fwdAdjust_plain (m : Model) (a : FlatAtom)
    (ha : m.at' (m.position + 1) = some a)
    (hskip : a.skipBoundary = false)
    (hcap : ∀ p, a.parent = some p →
      ((m.atoms.get? p).any (·.captureSelection)) = false) :
    fwdAdjust m = some (m.position + 1) := by
  rw [fwdAdjust]
  simp only [ha]
  cases hp : a.parent with
  | none =>
    simp only [hskip, Bool.false_eq_true, if_false]
  | some p =>
    simp only [hcap p hp, hskip, Bool.false_eq_true, if_false]

theorem bwdAdjust_plain (m : Model) (a : FlatAtom) (q : Int)
    (hq : m.position - 1 = q)
    (ha : m.at' q = some a)
    (hcap : ∀ p, a.parent = some p →
      ((m.atoms.get? p).any (·.captureSelection)) = false)
    (hskip : ∀ p, a.parent = some p →
      ¬(m.isFirstSib q.toNat = true ∧
        ((m.atoms.get? p).any (·.skipBoundary)) = true)) :
    bwdAdjust m = some q := by
  rw [bwdAdjust]
  rw [hq]
  simp only [ha]
  cases hp : a.parent with
  | none => rfl
  | some p =>
    simp only [hcap p hp, Bool.false_eq_true, if_false]
    rw [if_neg (hskip p hp)]

theorem moveBack_from (m : Model) (hk : Hooks) (aB : FlatAtom)
    (hno : ∀ a ∈ m.atoms, a.isSuggestion = false)
    (hP0 : 0 < m.position) (hPl : m.position < m.lastOffset)
    (hpc1 : ¬(m.tyAt (m.position + 1) = some AtomType.placeholder))
    (haB : m.at' m.position = some aB)
    (haBc : ∀ p, aB.parent = some p →
      ((m.atoms.get? p).any (·.captureSelection)) = false)
    (haBs : ∀ p, aB.parent = some p →
      ¬(m.isFirstSib m.position.toNat = true ∧
        ((m.atoms.get? p).any (·.skipBoundary)) = true))
    (hphAdj : ∀ rs, m.rightSibO m.position.toNat = some rs →
      m.tyAt (rs : Int) = some AtomType.placeholder → (rs : Int) = m.position + 1) :
    ∃ r : CmdRes, move4 (m.posSet (m.position + 1)) Dir4.backward false hk = some r ∧
      r.res = true ∧ r.model.position = m.position := by
  have hnoQ : ∀ a ∈ (m.posSet (m.position + 1)).atoms, a.isSuggestion = false := hno
  have hcsQ := clearSuggestions_id (m.posSet (m.position + 1)) hnoQ
  have hadjB : bwdAdjust (m.posSet (m.position + 1)) = some m.position :=
    bwdAdjust_plain (m.posSet (m.position + 1)) aB m.position (Int.add_sub_cancel m.position 1)
      haB haBc haBs
  have hlo : (m.posSet (m.position + 1)).lastOffset = m.lastOffset := rfl
  have hcomp := moveFBAux_inbounds hk (m.posSet (m.position + 1)) true m.position rfl
    (by simp only [if_true]; exact hadjB) (by omega) (by omega)
  have hgoal : move4 (m.posSet (m.position + 1)) Dir4.backward false hk =
      moveFBAux hk 2 (m.posSet (m.position + 1)) true false := by
    show moveFBAux hk 2 (m.posSet (m.position + 1)).clearSuggestions true false = _
    rw [hcsQ]
  rw [hgoal, hcomp]
  by_cases hq1 : (m.posSet (m.position + 1)).tyAt m.position = some AtomType.placeholder
  · rw [if_pos hq1]
    refine ⟨_, rfl, rfl, ?_⟩
    exact (setSel_pa (m.posSet (m.position + 1)) (m.position - 1) m.position
      (by omega) (by omega) (by omega) (by omega)).2.1
  · rw [if_neg hq1]
    by_cases hq2 : (match (m.posSet (m.position + 1)).at' m.position with
        | some _ =>
          match (m.posSet (m.position + 1)).rightSibO m.position.toNat with
          | some rs =>
            ((m.posSet (m.position + 1)).tyAt (rs : Int) =
              some AtomType.placeholder : Bool)
          | none => false
        | none => false) = true
    · exfalso
      have haBQ : (m.posSet (m.position + 1)).at' m.position = some aB := haB
      rw [haBQ] at hq2
      cases hrs : (m.posSet (m.position + 1)).rightSibO m.position.toNat with
      | none => rw [hrs] at hq2; exact absurd hq2 (by simp)
      | some rs =>
        rw [hrs] at hq2
        have hty : m.tyAt (rs : Int) = some AtomType.placeholder :=
          of_decide_eq_true hq2
        have hcast : (rs : Int) = m.position + 1 := hphAdj rs hrs hty
        rw [hcast] at hty
        exact hpc1 hty
    · rw [if_neg hq2]
      exact ⟨_, rfl, rfl, rfl⟩

/-- C2: movement reversibility.  From a collapsed caret P strictly inside the
document, with no skip-boundary or capture-selection atom adjacent to either
step (the atom entered going forward, and the atom stepped over coming back,
are plain), and placeholders occurring only as immediate siblings: if the
forward move succeeds and lands as a collapsed caret at Q, then the backward
move from that state succeeds and puts the caret back at P. -/
theorem claim_C2_move_reversible (m : Model) (hk : Hooks) (aF aB : FlatAtom)
    (mQ : Model) (anns : List Ann)
    (hno : ∀ a ∈ m.atoms, a.isSuggestion = false)
    (hcol : m.anchor = m.position)
    (hP0 : 0 < m.position) (hPl : m.position < m.lastOffset)
    (haF : m.at' (m.position + 1) = some aF)
    (haFs : aF.skipBoundary = false)
    (haFc : ∀ p, aF.parent = some p →
      ((m.atoms.get? p).any (·.captureSelection)) = false)
    (haB : m.at' m.position = some aB)
    (haBc : ∀ p, aB.parent = some p →
      ((m.atoms.get? p).any (·.captureSelection)) = false)
    (haBs : ∀ p, aB.parent = some p →
      ¬(m.isFirstSib m.position.toNat = true ∧
        ((m.atoms.get? p).any (·.skipBoundary)) = true))
    (hphAdj : ∀ rs, m.rightSibO m.position.toNat = some rs →
      m.tyAt (rs : Int) = some AtomType.placeholder → (rs : Int) = m.position + 1)
    (hfwd : move4 m Dir4.forward false hk = some ⟨true, mQ, anns⟩)
    (hland : mQ.anchor = mQ.position) :
    ∃ r : CmdRes, move4 mQ Dir4.backward false hk = some r ∧
      r.res = true ∧ r.model.position = m.position := by
  have hadjF : fwdAdjust m = some (m.position + 1) :=
    fwdAdjust_plain m aF haF haFs haFc
  have hcomp := moveFBAux_inbounds hk m false (m.position + 1) hcol
    (by simp only [Bool.false_eq_true, if_false]; exact hadjF) (by omega) (by omega)
  have hmv : move4 m Dir4.forward false hk = moveFBAux hk 2 m false false := by
    show moveFBAux hk 2 m.clearSuggestions false false = _
    rw [clearSuggestions_id m hno]
  rw [hmv, hcomp] at hfwd
  by_cases hpc1 : m.tyAt (m.position + 1) = some AtomType.placeholder
  · exfalso
    rw [if_pos hpc1] at hfwd
    have hmQ : mQ = (m.setSel (m.position + 1 - 1) (m.position + 1)).2 := by
      injection hfwd with h
      exact (congrArg CmdRes.model h).symm
    have hsa := setSel_pa m (m.position + 1 - 1) (m.position + 1)
      (by omega) (by omega) (by omega) (by omega)
    rw [hmQ, hsa.1, hsa.2.1] at hland
    omega
  · rw [if_neg hpc1] at hfwd
    by_cases hpc2 : (match m.at' (m.position + 1) with
        | some _ =>
          match m.rightSibO (m.position + 1).toNat with
          | some rs => (m.tyAt (rs : Int) = some AtomType.placeholder : Bool)
          | none => false
        | none => false) = true
    · exfalso
      rw [if_pos hpc2] at hfwd
      rw [haF] at hpc2
      cases hrs : m.rightSibO (m.position + 1).toNat with
      | none => rw [hrs] at hpc2; exact absurd hpc2 (by simp)
      | some rs =>
        rw [hrs] at hpc2
        have hbnd := rightSibO_spec m (m.position + 1).toNat rs hrs
        have hmQ : mQ = (m.setSel (m.position + 1) (m.position + 1 + 1)).2 := by
          injection hfwd with h
          exact (congrArg CmdRes.model h).symm
        have hup : m.position + 1 + 1 ≤ m.lastOffset := by
          have h2 : m.lastOffset = (m.atoms.length : Int) - 1 := rfl
          have h3 : m.size = m.atoms.length := rfl
          have h4 : ((m.position + 1).toNat : Int) = m.position + 1 := by omega
          omega
        have hsa := setSel_pa m (m.position + 1) (m.position + 1 + 1)
          (by omega) (by omega) (by omega) (by omega)
        rw [hmQ, hsa.1, hsa.2.1] at hland
        omega
    · rw [if_neg hpc2] at hfwd
      have hmQ : mQ = m.posSet (m.position + 1) := by
        injection hfwd with h
        exact (congrArg CmdRes.model h).symm
      rw [hmQ]
      exact moveBack_from m hk aB hno hP0 hPl hpc1 haB haBc haBs hphAdj

/-- Witness for C2: in the run a b c with the caret after a, the forward move
lands the collapsed caret after b, and the backward move from there returns
it to its starting offset. -/
theorem claim_C2_witness :
    ∃ r : CmdRes,
      move4 { exRun with position := 2, anchor := 2 } Dir4.backward false hkTrue =
        some r ∧ r.res = true ∧ r.model.position = exRun.position :=
  claim_C2_move_reversible exRun hkTrue (mordA 'b') (mordA 'a')
    { exRun with position := 2, anchor := 2 } [Ann.move 1]
    (by decide) (by decide) (by decide) (by decide) (by decide) (by decide)
    (by simp [mordA]) (by decide) (by simp [mordA]) (by simp [mordA])
    (by intro rs h1 h2
        rw [show exRun.rightSibO (Int.toNat exRun.position) = some 2 from rfl] at h1
        injection h1 with h1
        rw [h1.symm] at h2
        exact absurd h2 (by decide))
    (by decide) (by decide)

theorem bump_inj (idx p t : Nat) (h : bump idx p = bump idx t) : p = t := by
  unfold bump at h
  split at h <;> split at h <;> omega

theorem at'_natCast (m : Model) (j : Nat) : m.at' (j : Int) = m.atoms.get? j := by
  rw [Model.at']
  rw [if_neg (by omega : ¬((j : Int) < 0))]
  congr 1

/-- C7: moving upward without extend from inside a below branch whose owner
has no above branch reports success, announces the upward move, and creates
the above branch: the flattening gains exactly one atom, the fresh branch
sentinel, which sits in the above branch of the (shifted) owner, is the only
atom of that branch, and receives the caret — so the caret lands at the
offset of the created branch's last atom. -/
theorem claim_C7_moveUpward_creates (m : Model) (hk : Hooks) (aoff t : Nat)
    (a ow : FlatAtom)
    (hcol : m.anchor = m.position)
    (hanc : ancWalk m BranchName.below (m.size + 1) m.position = some (some aoff))
    (ha : m.atoms.get? aoff = some a)
    (hpar : a.parent = some t)
    (how : m.atoms.get? t = some ow)
    (hnb : m.hasBranch t BranchName.above = false) :
    ∃ mU : Model,
      moveUpward m false hk = some ⟨true, mU, [Ann.moveUp]⟩ ∧
      mU.position = (m.newBranchIdx t BranchName.above : Int) ∧
      mU.atoms.length = m.atoms.length + 1 ∧
      mU.tyAt (m.newBranchIdx t BranchName.above : Int) = some AtomType.first ∧
      mU.parentN (m.newBranchIdx t BranchName.above) = some (t + 1) ∧
      mU.branchN (m.newBranchIdx t BranchName.above) = some BranchName.above ∧
      (∀ j, j ≠ m.newBranchIdx t BranchName.above →
        ¬(mU.parentN j = some (t + 1) ∧ mU.branchN j = some BranchName.above)) := by
  have ht : t < m.atoms.length := getq_some_lt m t ow how
  have hidxle : m.newBranchIdx t BranchName.above ≤ t := Nat.sub_le _ _
  have hidxlen : m.newBranchIdx t BranchName.above ≤
      (m.atoms.map (FlatAtom.remap · (m.newBranchIdx t BranchName.above))).length := by
    rw [List.length_map]
    omega
  have hbump : bump (m.newBranchIdx t BranchName.above) t = t + 1 := by
    unfold bump
    rw [if_pos hidxle]
  have hcb : m.createBranch t BranchName.above =
      (m.insertAtomAt (m.newBranchIdx t BranchName.above)
        { ty := AtomType.first, mode := ow.mode, value := ' ',
          parent := some t, branch := BranchName.above },
        [m.newBranchIdx t BranchName.above]) := by
    rw [Model.createBranch]
    rw [if_neg (by simp [hnb] : ¬(m.hasBranch t BranchName.above = true))]
    simp only [Model.atN, how]
  have hrun : moveUpward m false hk =
      some ⟨true,
        ((m.insertAtomAt (m.newBranchIdx t BranchName.above)
          { ty := AtomType.first, mode := ow.mode, value := ' ',
            parent := some t, branch := BranchName.above }).posSet
          ((m.newBranchIdx t BranchName.above : Nat) : Int)),
        [Ann.moveUp]⟩ := by
    rw [moveUpward]
    have hcc : (m.collapseSel false).2 = m := by
      rw [collapseSel_collapsed m false hcol]
    rw [hcc, hanc]
    simp only []
    rw [ha]
    simp only [Option.some_bind]
    rw [hpar]
    simp only [Bool.false_eq_true, if_false]
    rw [hcb]
    simp only []
    rfl
  have hget : ((m.insertAtomAt (m.newBranchIdx t BranchName.above)
      { ty := AtomType.first, mode := ow.mode, value := ' ',
        parent := some t, branch := BranchName.above }).atoms).get?
        (m.newBranchIdx t BranchName.above) =
      some (FlatAtom.remap
        { ty := AtomType.first, mode := ow.mode, value := ' ',
          parent := some t, branch := BranchName.above }
        (m.newBranchIdx t BranchName.above)) :=
    insertAt_get_self _ _ _ hidxlen
  refine ⟨_, hrun, rfl, ?_, ?_, ?_, ?_, ?_⟩
  · show (insertAt _ _ _).length = m.atoms.length + 1
    rw [insertAt_length, List.length_map]
  · rw [Model.tyAt, at'_natCast]
    show ((m.insertAtomAt (m.newBranchIdx t BranchName.above) _).atoms.get? _).map (·.ty) = _
    rw [hget]
    rfl
  · rw [Model.parentN]
    show ((m.insertAtomAt (m.newBranchIdx t BranchName.above) _).atoms.get? _).bind (·.parent) = _
    rw [hget]
    show some (bump (m.newBranchIdx t BranchName.above) t) = _
    rw [hbump]
  · rw [Model.branchN]
    show ((m.insertAtomAt (m.newBranchIdx t BranchName.above) _).atoms.get? _).map (·.branch) = _
    rw [hget]
    rfl
  · intro j hj hcon
    obtain ⟨hpj, hbj⟩ := hcon
    rw [Model.parentN] at hpj
    rw [Model.branchN] at hbj
    have hpa : ∀ (mm : Model) (i : Int), (mm.posSet i).atoms = mm.atoms :=
      fun _ _ => rfl
    rw [hpa] at hpj hbj
    rcases Nat.lt_or_ge j (m.newBranchIdx t BranchName.above) with hlt | hge
    · have hgj : ((m.insertAtomAt (m.newBranchIdx t BranchName.above)
          { ty := AtomType.first, mode := ow.mode, value := ' ',
            parent := some t, branch := BranchName.above }).atoms).get? j =
          (m.atoms.map (FlatAtom.remap · (m.newBranchIdx t BranchName.above))).get? j :=
        insertAt_get_lt _ _ _ j hlt hidxlen
      rw [hgj, List.get?_map] at hpj hbj
      cases hb : m.atoms.get? j with
      | none => rw [hb] at hpj; exact absurd hpj (by simp)
      | some b =>
        rw [hb] at hpj hbj
        simp only [Option.map_some', Option.some_bind, FlatAtom.remap] at hpj hbj
        cases hbp : b.parent with
        | none => rw [hbp] at hpj; exact absurd hpj (by simp)
        | some p =>
          rw [hbp] at hpj
          simp only [Option.map_some', Option.some.injEq] at hpj hbj
          have hpt : p = t := bump_inj _ p t (by rw [hpj, hbump])
          exact hasBranch_false_spec m t BranchName.above hnb j
            ⟨by rw [Model.parentN, hb, Option.some_bind, hbp, hpt],
              by rw [Model.branchN, hb, Option.map_some', hbj]⟩
    · obtain ⟨j', rfl⟩ : ∃ j', j = j' + 1 := ⟨j - 1, by omega⟩
      have hgj : ((m.insertAtomAt (m.newBranchIdx t BranchName.above)
          { ty := AtomType.first, mode := ow.mode, value := ' ',
            parent := some t, branch := BranchName.above }).atoms).get? (j' + 1) =
          (m.atoms.map (FlatAtom.remap · (m.newBranchIdx t BranchName.above))).get? j' :=
        insertAt_get_succ _ _ _ j' (by omega)
      rw [hgj, List.get?_map] at hpj hbj
      cases hb : m.atoms.get? j' with
      | none => rw [hb] at hpj; exact absurd hpj (by simp)
      | some b =>
        rw [hb] at hpj hbj
        simp only [Option.map_some', Option.some_bind, FlatAtom.remap] at hpj hbj
        cases hbp : b.parent with
        | none => rw [hbp] at hpj; exact absurd hpj (by simp)
        | some p =>
          rw [hbp] at hpj
          simp only [Option.map_some', Option.some.injEq] at hpj hbj
          have hpt : p = t := bump_inj _ p t (by rw [hpj, hbump])
          exact hasBranch_false_spec m t BranchName.above hnb j'
            ⟨by rw [Model.parentN, hb, Option.some_bind, hbp, hpt],
              by rw [Model.branchN, hb, Option.map_some', hbj]⟩

/-- Witness for C7 at the fraction with a lone denominator: moving upward
creates the numerator branch at offset 1 with owner offset 4 and places the
caret there. -/
theorem claim_C7_witness :
    ∃ mU : Model,
      moveUpward exFrac false hkTrue = some ⟨true, mU, [Ann.moveUp]⟩ ∧
      mU.position = (exFrac.newBranchIdx 3 BranchName.above : Int) ∧
      mU.atoms.length = exFrac.atoms.length + 1 ∧
      mU.tyAt (exFrac.newBranchIdx 3 BranchName.above : Int) = some AtomType.first ∧
      mU.parentN (exFrac.newBranchIdx 3 BranchName.above) = some (3 + 1) ∧
      mU.branchN (exFrac.newBranchIdx 3 BranchName.above) = some BranchName.above ∧
      (∀ j, j ≠ exFrac.newBranchIdx 3 BranchName.above →
        ¬(mU.parentN j = some (3 + 1) ∧ mU.branchN j = some BranchName.above)) :=
  claim_C7_moveUpward_creates exFrac hkTrue 2 3
    { ty := AtomType.mord, mode := Mode.math, value := 'x',
      parent := some 3, branch := BranchName.below }
    { ty := AtomType.genfrac, mode := Mode.math, value := 'f' }
    (by decide) (by decide) (by decide) (by decide) (by decide) (by decide)

end MLV
